import Mathlib

/-!
Verification of the quote-distribution service (control-plane protocol,
subscriber registry, streaming units, price generator) against its
natural-language specification.  The Rust sources are shallowly embedded:
strings are `List Char`, `rust_decimal::Decimal` is a mantissa/scale pair,
machine integers are `Nat` with explicit range checks where the code
checks them, fallible code returns `Option`, and the stateful server
loops become explicit state-passing functions.
-/

namespace QuoteService

/-- Strings of the embedded program: Rust `&str`/`String` as `List Char`. -/
abbrev Str := List Char

/-- Unicode `White_Space` code points, the set Rust's `char::is_whitespace`
(used by `str::trim`, `str::split_whitespace`) recognises. -/
def isWs (c : Char) : Bool :=
  c.toNat = 32 || (9 ≤ c.toNat && c.toNat ≤ 13) || c.toNat = 0x85 ||
  c.toNat = 0xA0 || c.toNat = 0x1680 ||
  (0x2000 ≤ c.toNat && c.toNat ≤ 0x200A) ||
  c.toNat = 0x2028 || c.toNat = 0x2029 || c.toNat = 0x202F ||
  c.toNat = 0x205F || c.toNat = 0x3000

/-- Rust `str::trim_start`. -/
def trimStart (s : Str) : Str := s.dropWhile isWs

/-- Rust `str::trim` (drop whitespace at both ends). -/
def trim (s : Str) : Str := ((trimStart s).reverse.dropWhile isWs).reverse

/-- ASCII uppercasing of one character, the effect of Rust
`str::to_uppercase` on ASCII input (non-ASCII uppercasing is not
relevant to the protocol's tokens and is modelled as the identity). -/
def upChar (c : Char) : Char :=
  if 97 ≤ c.toNat ∧ c.toNat ≤ 122 then Char.ofNat (c.toNat - 32) else c

/-- Rust `str::to_uppercase` (ASCII fragment). -/
def upStr (s : Str) : Str := s.map upChar

/-- Rust `str::split(sep)`: split at every occurrence of `sep`,
keeping empty segments (`"".split(sep) == [""]`). -/
def splitOnChar (sep : Char) : Str → List Str
  | [] => [[]]
  | c :: cs =>
    match splitOnChar sep cs with
    | [] => if c = sep then [[], []] else [[c]]
    | h :: t => if c = sep then [] :: h :: t else (c :: h) :: t

/-- Rust `str::split_whitespace`: whitespace-separated tokens, no empties. -/
def splitWs (s : Str) : List Str :=
  (splitOnCharP s).filter (fun t => !t.isEmpty)
where
  /-- split at every whitespace character (empties then filtered). -/
  splitOnCharP : Str → List Str
  | [] => [[]]
  | c :: cs =>
    match splitOnCharP cs with
    | [] => if isWs c then [[], []] else [[c]]
    | h :: t => if isWs c then [] :: h :: t else (c :: h) :: t

theorem splitOnChar_ne_nil (sep : Char) (s : Str) : splitOnChar sep s ≠ [] := by
  cases s with
  | nil => simp [splitOnChar]
  | cons c cs =>
    simp only [splitOnChar]
    cases h : splitOnChar sep cs <;> by_cases hc : c = sep <;> simp [hc]

/-- Splitting a separator-free string yields the single segment. -/
theorem splitOnChar_of_not_mem {sep : Char} {s : Str} (h : sep ∉ s) :
    splitOnChar sep s = [s] := by
  induction s with
  | nil => rfl
  | cons c cs ih =>
    simp only [List.mem_cons, not_or] at h
    simp only [splitOnChar, ih h.2]
    rw [if_neg (by exact fun hc => h.1 hc.symm)]

/-- Splitting `a ++ sep :: r` where `a` is separator-free peels off `a`. -/
theorem splitOnChar_append {sep : Char} {a : Str} (r : Str) (h : sep ∉ a) :
    splitOnChar sep (a ++ sep :: r) = a :: splitOnChar sep r := by
  induction a with
  | nil =>
    simp only [List.nil_append, splitOnChar]
    cases h' : splitOnChar sep r with
    | nil => exact absurd h' (splitOnChar_ne_nil _ _)
    | cons x xs => simp
  | cons c cs ih =>
    simp only [List.mem_cons, not_or] at h
    have ih' := ih h.2
    simp only [List.cons_append, splitOnChar, List.append_eq] at ih' ⊢
    rw [ih']
    show (if c = sep then [] :: cs :: splitOnChar sep r
          else (c :: cs) :: splitOnChar sep r) = (c :: cs) :: splitOnChar sep r
    rw [if_neg (by exact fun hc => h.1 hc.symm)]

/-! ### Decimal digit strings

Rendering and parsing of unsigned decimal numerals, the common substrate
of Rust's integer `Display`/`FromStr` and of `rust_decimal`'s text form. -/

/-- ASCII decimal digit test (Rust `char::to_digit(10)` succeeds). -/
def isDigitB (c : Char) : Bool := 48 ≤ c.toNat && c.toNat ≤ 57

/-- Numeric value of a digit character. -/
def digitVal (c : Char) : ℕ := c.toNat - 48

/-- Base-10 digits of `n`, least significant first (`fuel ≥ n` is
enough; the explicit fuel keeps the definition kernel-computable). -/
def toDigitsRev (fuel n : ℕ) : List ℕ :=
  match fuel with
  | 0 => []
  | f + 1 => if n = 0 then [] else n % 10 :: toDigitsRev f (n / 10)

/-- Decimal rendering of a `Nat`, as Rust's integer `Display` prints it. -/
def natRender (n : ℕ) : Str :=
  if n = 0 then ['0'] else ((toDigitsRev n n).map Nat.digitChar).reverse

theorem toDigitsRev_eq_digits (fuel n : ℕ) (h : n ≤ fuel) :
    toDigitsRev fuel n = Nat.digits 10 n := by
  induction fuel generalizing n with
  | zero =>
    interval_cases n
    simp [toDigitsRev]
  | succ f ih =>
    by_cases h0 : n = 0
    · subst h0; simp [toDigitsRev]
    · have hn : 0 < n := Nat.pos_of_ne_zero h0
      rw [show toDigitsRev (f + 1) n = n % 10 :: toDigitsRev f (n / 10) by
        simp [toDigitsRev, h0]]
      rw [Nat.digits_def' (by norm_num) hn, ih _ (by omega)]

theorem natRender_eq (n : ℕ) : natRender n =
    if n = 0 then ['0'] else ((Nat.digits 10 n).map Nat.digitChar).reverse := by
  unfold natRender
  rw [toDigitsRev_eq_digits n n le_rfl]

/-- Rust integer `FromStr` accepts one optional leading `+`. -/
def stripPlus : Str → Str
  | [] => []
  | c :: r => if c = '+' then r else c :: r

/-- Rust unsigned-integer `FromStr` (overflow is checked at use sites,
where the target width is known). -/
def natParse (s : Str) : Option ℕ :=
  let s1 := stripPlus s
  if s1 ≠ [] ∧ s1.all isDigitB = true then
    some (s1.foldl (fun a c => 10 * a + digitVal c) 0)
  else none

theorem digitChar_toNat {d : ℕ} (h : d < 10) :
    (Nat.digitChar d).toNat = 48 + d := by
  interval_cases d <;> decide

theorem isDigitB_digitChar {d : ℕ} (h : d < 10) :
    isDigitB (Nat.digitChar d) = true := by
  interval_cases d <;> decide

theorem natRender_ne_nil (n : ℕ) : natRender n ≠ [] := by
  rw [natRender_eq]
  split
  · simp
  · simpa using Nat.digits_ne_nil_iff_ne_zero.mpr (by assumption)

theorem mem_natRender_isDigit {n : ℕ} {c : Char} (h : c ∈ natRender n) :
    isDigitB c = true := by
  rw [natRender_eq] at h
  split at h
  · simp only [List.mem_singleton] at h; subst h; decide
  · simp only [List.mem_reverse, List.mem_map] at h
    obtain ⟨d, hd, rfl⟩ := h
    exact isDigitB_digitChar (Nat.digits_lt_base (by norm_num) hd)

theorem foldl_digitChars (L : List ℕ) (hL : ∀ d ∈ L, d < 10) (a : ℕ) :
    ((L.map Nat.digitChar).reverse).foldl (fun x c => 10 * x + digitVal c) a
      = a * 10 ^ L.length + Nat.ofDigits 10 L := by
  induction L generalizing a with
  | nil => simp [Nat.ofDigits]
  | cons d ds ih =>
    have hd : d < 10 := hL d (List.mem_cons_self _ _)
    have hds : ∀ x ∈ ds, x < 10 := fun x hx => hL x (List.mem_cons_of_mem _ hx)
    simp only [List.map_cons, List.reverse_cons, List.foldl_append,
      List.foldl_cons, List.foldl_nil, ih hds]
    have : digitVal (Nat.digitChar d) = d := by
      unfold digitVal; rw [digitChar_toNat hd]; omega
    rw [this, Nat.ofDigits_cons, List.length_cons]
    ring

/-- Folding the digit evaluator over leading zeros starting from zero
stays at zero. -/
theorem foldl_zeros (k : ℕ) :
    (List.replicate k '0').foldl (fun a c => 10 * a + digitVal c) 0 = 0 := by
  induction k with
  | zero => rfl
  | succ k ih => simpa [List.replicate_succ, digitVal] using ih

/-- The numeral parser inverts the numeral renderer. -/
theorem natParse_natRender (n : ℕ) : natParse (natRender n) = some n := by
  by_cases h0 : n = 0
  · subst h0; decide
  · have hne : natRender n ≠ [] := natRender_ne_nil n
    have hdig : ∀ c ∈ natRender n, isDigitB c = true :=
      fun c hc => mem_natRender_isDigit hc
    have hplus : stripPlus (natRender n) = natRender n := by
      cases hr : natRender n with
      | nil => exact absurd hr hne
      | cons c cs =>
        have hc : isDigitB c = true :=
          hdig c (by rw [hr]; exact List.mem_cons_self c cs)
        simp only [stripPlus]
        rw [if_neg]
        intro hEq
        subst hEq
        exact absurd hc (by decide)
    unfold natParse
    rw [hplus, if_pos ⟨hne, List.all_eq_true.mpr hdig⟩]
    rw [natRender_eq, if_neg h0]
    rw [foldl_digitChars _ (fun d hd => Nat.digits_lt_base (by norm_num) hd) 0,
      Nat.ofDigits_digits]
    simp

/-! ### `rust_decimal::Decimal`

A decimal is a 96-bit signed mantissa with a scale of at most 28.
`val` is its rational value.  Arithmetic is modelled exactly; in the
ranges exercised here `rust_decimal` is exact as well, and where it
would round (products beyond 28 fractional digits) the claims allow a
rounding tolerance. -/

structure Dec where
  m : ℤ
  s : ℕ
  deriving DecidableEq

namespace Dec

/-- Rational value of a decimal. -/
def val (d : Dec) : ℚ := (d.m : ℚ) / 10 ^ d.s

/-- Representable by the 96-bit mantissa / scale ≤ 28 of `Decimal`. -/
def Valid (d : Dec) : Prop := d.m.natAbs < 2 ^ 96 ∧ d.s ≤ 28

instance : DecidablePred Valid := fun d => by unfold Valid; infer_instance

def neg (d : Dec) : Dec := ⟨-d.m, d.s⟩

/-- Addition: align scales exactly (what `Decimal` does absent overflow). -/
def add (a b : Dec) : Dec :=
  ⟨a.m * 10 ^ (max a.s b.s - a.s) + b.m * 10 ^ (max a.s b.s - b.s), max a.s b.s⟩

def sub (a b : Dec) : Dec := add a (neg b)

/-- Multiplication: exact product (what `Decimal` does absent overflow). -/
def mul (a b : Dec) : Dec := ⟨a.m * b.m, a.s + b.s⟩

/-- `Decimal`'s `Ord` comparison: align the scales and compare the
integer mantissas (value order). -/
def ltB (a b : Dec) : Bool :=
  decide (a.m * 10 ^ (max a.s b.s - a.s) < b.m * 10 ^ (max a.s b.s - b.s))

/-- Rust `Ord::max` on `Decimal` (value comparison; equal values keep the
second argument). -/
def maxD (a b : Dec) : Dec := if ltB b a then a else b

/-- Division by the literal `dec!(10000)`, the only division the
generator performs; exact for these operands. -/
def divTenThousand (a : Dec) : Dec := ⟨a.m, a.s + 4⟩

theorem val_mk (m : ℤ) (s : ℕ) : val ⟨m, s⟩ = (m : ℚ) / 10 ^ s := rfl

theorem val_neg (d : Dec) : d.neg.val = -d.val := by
  unfold neg val; push_cast; ring

private theorem scale_shift {m : ℤ} {t s' : ℕ} (ht : t ≤ s') :
    ((m * 10 ^ (s' - t) : ℤ) : ℚ) / 10 ^ s' = (m : ℚ) / 10 ^ t := by
  push_cast
  rw [div_eq_div_iff (by positivity) (by positivity), mul_assoc, ← pow_add,
    Nat.sub_add_cancel ht]

theorem val_add (a b : Dec) : (a.add b).val = a.val + b.val := by
  unfold add val
  push_cast
  rw [add_div]
  have h1 := scale_shift (m := a.m) (le_max_left a.s b.s)
  have h2 := scale_shift (m := b.m) (le_max_right a.s b.s)
  push_cast at h1 h2
  rw [h1, h2]

theorem val_sub (a b : Dec) : (a.sub b).val = a.val - b.val := by
  unfold sub; rw [val_add, val_neg]; ring

theorem val_mul (a b : Dec) : (a.mul b).val = a.val * b.val := by
  unfold mul val
  push_cast
  rw [pow_add, div_mul_div_comm]

theorem ltB_iff (a b : Dec) : ltB a b = true ↔ a.val < b.val := by
  unfold ltB
  rw [decide_eq_true_iff]
  have ha : a.val = ((a.m * 10 ^ (max a.s b.s - a.s) : ℤ) : ℚ)
      / 10 ^ (max a.s b.s) := (scale_shift (le_max_left a.s b.s)).symm
  have hb : b.val = ((b.m * 10 ^ (max a.s b.s - b.s) : ℤ) : ℚ)
      / 10 ^ (max a.s b.s) := (scale_shift (le_max_right a.s b.s)).symm
  rw [ha, hb, div_lt_div_iff_of_pos_right (by positivity)]
  exact Int.cast_lt.symm

theorem val_maxD (a b : Dec) : (a.maxD b).val = max a.val b.val := by
  unfold maxD
  split
  · exact (max_eq_left (le_of_lt ((ltB_iff b a).mp (by assumption)))).symm
  · have : ¬ b.val < a.val := fun hlt =>
      (by assumption : ¬ ltB b a = true) ((ltB_iff b a).mpr hlt)
    exact (max_eq_right (le_of_not_lt this)).symm

theorem val_divTenThousand (a : Dec) :
    a.divTenThousand.val = a.val / 10000 := by
  unfold divTenThousand val
  rw [pow_add]
  norm_num
  ring

/-- `Decimal`'s `Display`: optional sign, the mantissa digits padded to
at least `s + 1` digits, a point before the last `s` digits. -/
def render (d : Dec) : Str :=
  let ds := natRender d.m.natAbs
  let pad := if ds.length ≤ d.s then
      List.replicate (d.s + 1 - ds.length) '0' ++ ds else ds
  let sign : Str := if d.m < 0 then ['-'] else []
  if d.s = 0 then sign ++ pad
  else sign ++ (pad.take (pad.length - d.s) ++ '.' :: pad.drop (pad.length - d.s))

/-- Leading sign handling of `Decimal::from_str`. -/
def stripSign : Str → Bool × Str
  | [] => (false, [])
  | c :: r =>
    if c = '-' then (true, r)
    else if c = '+' then (false, c :: r) else (false, c :: r)

/-- `Decimal::from_str` on `Display` output: sign, integer digits,
optional point and fractional digits.  Inputs `rust_decimal` would
round (more than 28 fractional digits) or reject for overflow are
rejected; no such input arises from `render` of a `Valid` decimal. -/
def parse (s : Str) : Option Dec :=
  let p := stripSign s
  match splitOnChar '.' p.2 with
  | [ip] => parseDigits p.1 ip []
  | [ip, fp] => parseDigits p.1 ip fp
  | _ => none
where
  parseDigits (neg : Bool) (ip fp : Str) : Option Dec :=
    let ds := ip ++ fp
    if ds ≠ [] ∧ ds.all isDigitB = true ∧ fp.length ≤ 28 then
      let v := ds.foldl (fun a c => 10 * a + digitVal c) 0
      if v < 2 ^ 96 then
        some ⟨if neg then -(v : ℤ) else (v : ℤ), fp.length⟩
      else none
    else none

end Dec

/-- Folding the digit evaluator over `natRender n` recovers `n`. -/
theorem foldl_natRender (n : ℕ) :
    (natRender n).foldl (fun a c => 10 * a + digitVal c) 0 = n := by
  by_cases h0 : n = 0
  · subst h0; decide
  · rw [natRender_eq, if_neg h0,
      foldl_digitChars _ (fun d hd => Nat.digits_lt_base (by norm_num) hd) 0,
      Nat.ofDigits_digits]
    simp

theorem isDigitB_ne_minus {c : Char} (h : isDigitB c = true) : c ≠ '-' := by
  intro he; subst he; exact absurd h (by decide)

theorem isDigitB_ne_plus {c : Char} (h : isDigitB c = true) : c ≠ '+' := by
  intro he; subst he; exact absurd h (by decide)

theorem isDigitB_ne_point {c : Char} (h : isDigitB c = true) : c ≠ '.' := by
  intro he; subst he; exact absurd h (by decide)

theorem stripSign_digits {l : Str} (x : Char) (xs : Str) (hx : l = x :: xs)
    (hdig : isDigitB x = true) : Dec.stripSign l = (false, l) := by
  subst hx
  simp only [Dec.stripSign]
  rw [if_neg (fun he => isDigitB_ne_minus hdig he),
    if_neg (fun he => isDigitB_ne_plus hdig he)]

/-- Parsing sign + digit run (no point) recovers mantissa and scale 0. -/
theorem parse_core_noPoint (neg : Bool) (pad : Str) (h1 : pad ≠ [])
    (h2 : ∀ c ∈ pad, isDigitB c = true)
    (hv : pad.foldl (fun a c => 10 * a + digitVal c) 0 < 2 ^ 96) :
    Dec.parse ((if neg then ['-'] else []) ++ pad) =
      some ⟨if neg
            then -((pad.foldl (fun a c => 10 * a + digitVal c) 0 : ℕ) : ℤ)
            else ((pad.foldl (fun a c => 10 * a + digitVal c) 0 : ℕ) : ℤ),
            0⟩ := by
  have hstrip : Dec.stripSign ((if neg then ['-'] else []) ++ pad) = (neg, pad) := by
    cases neg with
    | true => simp [Dec.stripSign]
    | false =>
      simp only [if_neg (Bool.false_ne_true), List.nil_append]
      cases pad with
      | nil => exact absurd rfl h1
      | cons x xs =>
        exact stripSign_digits x xs rfl (h2 x (List.mem_cons_self x xs))
  have hsplit : splitOnChar '.' pad = [pad] :=
    splitOnChar_of_not_mem (fun hmem => isDigitB_ne_point (h2 _ hmem) rfl)
  simp only [Dec.parse, hstrip, hsplit, Dec.parse.parseDigits, List.append_nil]
  rw [if_pos ⟨h1, List.all_eq_true.mpr h2, by simp⟩, if_pos hv]
  simp

/-- Parsing sign + digits with a point `s` places from the right
recovers mantissa and scale `s`. -/
theorem parse_core_point (neg : Bool) (pad : Str) (s : ℕ) (h0 : 0 < s)
    (hlen : s < pad.length) (h2 : ∀ c ∈ pad, isDigitB c = true) (hs : s ≤ 28)
    (hv : pad.foldl (fun a c => 10 * a + digitVal c) 0 < 2 ^ 96) :
    Dec.parse ((if neg then ['-'] else []) ++
        (pad.take (pad.length - s) ++ '.' :: pad.drop (pad.length - s))) =
      some ⟨if neg
            then -((pad.foldl (fun a c => 10 * a + digitVal c) 0 : ℕ) : ℤ)
            else ((pad.foldl (fun a c => 10 * a + digitVal c) 0 : ℕ) : ℤ),
            s⟩ := by
  have htake : ∀ c ∈ pad.take (pad.length - s), isDigitB c = true :=
    fun c hc => h2 c (List.take_subset _ _ hc)
  have hdrop : ∀ c ∈ pad.drop (pad.length - s), isDigitB c = true :=
    fun c hc => h2 c (List.drop_subset _ _ hc)
  have htne : pad.take (pad.length - s) ≠ [] := by
    have : 0 < pad.length - s := by omega
    intro he
    have := congrArg List.length he
    simp only [List.length_take, List.length_nil] at this
    omega
  have hstrip : Dec.stripSign ((if neg then ['-'] else []) ++
      (pad.take (pad.length - s) ++ '.' :: pad.drop (pad.length - s))) =
      (neg, pad.take (pad.length - s) ++ '.' :: pad.drop (pad.length - s)) := by
    cases neg with
    | true => simp [Dec.stripSign]
    | false =>
      simp only [if_neg (Bool.false_ne_true), List.nil_append]
      cases hp : pad.take (pad.length - s) with
      | nil => exact absurd hp htne
      | cons x xs =>
        rw [List.cons_append]
        refine stripSign_digits x (xs ++ '.' :: pad.drop (pad.length - s)) rfl ?_
        have hx : x ∈ pad.take (pad.length - s) := by
          rw [hp]; exact List.mem_cons_self x xs
        exact htake x hx
  have hsplit : splitOnChar '.' (pad.take (pad.length - s) ++
      '.' :: pad.drop (pad.length - s)) =
      [pad.take (pad.length - s), pad.drop (pad.length - s)] := by
    rw [splitOnChar_append _ (fun hmem => isDigitB_ne_point (htake _ hmem) rfl),
      splitOnChar_of_not_mem (fun hmem => isDigitB_ne_point (hdrop _ hmem) rfl)]
  simp only [Dec.parse, hstrip, hsplit, Dec.parse.parseDigits,
    List.take_append_drop]
  have hfpl : (pad.drop (pad.length - s)).length = s := by
    rw [List.length_drop]; omega
  have hpne : pad ≠ [] := by
    intro he
    rw [he] at hlen
    simp at hlen
  rw [if_pos ⟨hpne, List.all_eq_true.mpr h2, by rw [hfpl]; exact hs⟩,
    if_pos hv, hfpl]

theorem parse_signed_noPoint (m : ℤ) (pad : Str) (hpne : pad ≠ [])
    (hdig : ∀ c ∈ pad, isDigitB c = true)
    (hfold : pad.foldl (fun a c => 10 * a + digitVal c) 0 = m.natAbs)
    (hm : m.natAbs < 2 ^ 96) :
    Dec.parse ((if m < 0 then ['-'] else []) ++ pad) = some ⟨m, 0⟩ := by
  by_cases hneg : m < 0
  · rw [if_pos hneg]
    have hcore : Dec.parse ('-' :: pad) =
        some ⟨-((pad.foldl (fun a c => 10 * a + digitVal c) 0 : ℕ) : ℤ), 0⟩ :=
      parse_core_noPoint true pad hpne hdig (by rw [hfold]; exact hm)
    show Dec.parse ('-' :: pad) = some ⟨m, 0⟩
    rw [hcore, hfold]
    have hval : -((m.natAbs : ℕ) : ℤ) = m := by omega
    rw [hval]
  · rw [if_neg hneg]
    have hcore : Dec.parse pad =
        some ⟨((pad.foldl (fun a c => 10 * a + digitVal c) 0 : ℕ) : ℤ), 0⟩ :=
      parse_core_noPoint false pad hpne hdig (by rw [hfold]; exact hm)
    show Dec.parse pad = some ⟨m, 0⟩
    rw [hcore, hfold]
    have hval : ((m.natAbs : ℕ) : ℤ) = m := by omega
    rw [hval]

theorem parse_signed_point (m : ℤ) (s : ℕ) (pad : Str) (h0 : 0 < s)
    (hlen : s < pad.length) (hdig : ∀ c ∈ pad, isDigitB c = true) (hs : s ≤ 28)
    (hfold : pad.foldl (fun a c => 10 * a + digitVal c) 0 = m.natAbs)
    (hm : m.natAbs < 2 ^ 96) :
    Dec.parse ((if m < 0 then ['-'] else []) ++
      (pad.take (pad.length - s) ++ '.' :: pad.drop (pad.length - s))) =
      some ⟨m, s⟩ := by
  by_cases hneg : m < 0
  · rw [if_pos hneg]
    have hcore : Dec.parse ('-' ::
        (pad.take (pad.length - s) ++ '.' :: pad.drop (pad.length - s))) =
        some ⟨-((pad.foldl (fun a c => 10 * a + digitVal c) 0 : ℕ) : ℤ), s⟩ :=
      parse_core_point true pad s h0 hlen hdig hs (by rw [hfold]; exact hm)
    show Dec.parse ('-' ::
        (pad.take (pad.length - s) ++ '.' :: pad.drop (pad.length - s))) =
      some ⟨m, s⟩
    rw [hcore, hfold]
    have hval : -((m.natAbs : ℕ) : ℤ) = m := by omega
    rw [hval]
  · rw [if_neg hneg]
    have hcore : Dec.parse
        (pad.take (pad.length - s) ++ '.' :: pad.drop (pad.length - s)) =
        some ⟨((pad.foldl (fun a c => 10 * a + digitVal c) 0 : ℕ) : ℤ), s⟩ :=
      parse_core_point false pad s h0 hlen hdig hs (by rw [hfold]; exact hm)
    show Dec.parse
        (pad.take (pad.length - s) ++ '.' :: pad.drop (pad.length - s)) =
      some ⟨m, s⟩
    rw [hcore, hfold]
    have hval : ((m.natAbs : ℕ) : ℤ) = m := by omega
    rw [hval]

/-- `Decimal::from_str` inverts `Decimal`'s `Display`: the mantissa and
the scale (decimal precision) are recovered exactly. -/
theorem Dec.parse_render (d : Dec) (hd : d.Valid) :
    Dec.parse (Dec.render d) = some d := by
  obtain ⟨m, s⟩ := d
  obtain ⟨hm, hs⟩ := hd
  simp only at hm hs
  have hAne : natRender m.natAbs ≠ [] := natRender_ne_nil _
  have hAdig : ∀ c ∈ natRender m.natAbs, isDigitB c = true :=
    fun c hc => mem_natRender_isDigit hc
  have hApos : 0 < (natRender m.natAbs).length := List.length_pos.mpr hAne
  have hfoldA : (natRender m.natAbs).foldl (fun a c => 10 * a + digitVal c) 0
      = m.natAbs := foldl_natRender _
  by_cases hsz : s = 0
  · subst hsz
    have hAlen : ¬ (natRender m.natAbs).length ≤ 0 := by omega
    simp only [Dec.render, if_pos rfl, if_neg hAlen]
    exact parse_signed_noPoint m _ hAne hAdig hfoldA hm
  · have h0 : 0 < s := Nat.pos_of_ne_zero hsz
    simp only [Dec.render, if_neg hsz]
    by_cases hpd : (natRender m.natAbs).length ≤ s
    · rw [if_pos hpd]
      have hdig : ∀ c ∈ List.replicate (s + 1 - (natRender m.natAbs).length) '0'
          ++ natRender m.natAbs, isDigitB c = true := by
        intro c hc
        rcases List.mem_append.mp hc with h | h
        · rw [List.eq_of_mem_replicate h]; decide
        · exact hAdig c h
      have hlen : s < (List.replicate (s + 1 - (natRender m.natAbs).length) '0'
          ++ natRender m.natAbs).length := by
        rw [List.length_append, List.length_replicate]; omega
      have hfold : (List.replicate (s + 1 - (natRender m.natAbs).length) '0'
          ++ natRender m.natAbs).foldl (fun a c => 10 * a + digitVal c) 0
          = m.natAbs := by
        rw [List.foldl_append, foldl_zeros, hfoldA]
      exact parse_signed_point m s _ h0 hlen hdig hs hfold hm
    · rw [if_neg hpd]
      have hlen : s < (natRender m.natAbs).length := by omega
      exact parse_signed_point m s _ h0 hlen hAdig hs hfoldA hm

/-! ### Topic sets (`Tickers`, `common/src/protocol.rs`) -/

/-- `Tickers` wraps a `NonEmpty<String>` of symbols. -/
def Tickers := { l : List Str // l ≠ [] }

instance : DecidableEq Tickers := fun a b =>
  decidable_of_iff (a.val = b.val) Subtype.ext_iff.symm

/-- `Tickers::contains`: exact string membership. -/
def Tickers.containsT (tk : Tickers) (t : Str) : Bool :=
  tk.val.any (fun x => decide (x = t))

/-- `Tickers::from_str`: split on `,`, trim, uppercase, drop empty
segments, fail when nothing remains. -/
def Tickers.fromStr (s : Str) : Option Tickers :=
  let l := ((splitOnChar ',' s).map (fun t => upStr (trim t))).filter
    (fun t => !t.isEmpty)
  if h : l = [] then none else some ⟨l, h⟩

/-- `Tickers`' `Display`: elements joined by `,` (first, then `,elem`). -/
def joinComma : List Str → Str
  | [] => []
  | [x] => x
  | x :: y :: xs => x ++ ',' :: joinComma (y :: xs)

/-- `Tickers`' `Display`. -/
def Tickers.display (tk : Tickers) : Str := joinComma tk.val

/-! ### Addresses and commands (`common/src/protocol.rs`) -/

/-- A resolved network address (IP + port); DNS names are already
resolved at this level. -/
structure SockAddr where
  ip : ℕ
  port : ℕ
  deriving DecidableEq

/-- `UdpAddr`: a `SocketAddr` tagged with the `udp` scheme. -/
structure UdpAddr where
  socketAddr : SockAddr
  deriving DecidableEq

/-- `Command`: `STREAM <addr> <tickers>` or `PING`. -/
inductive Command where
  | stream (udpAddr : UdpAddr) (tickers : Tickers)
  | ping
  deriving DecidableEq

/-- `Command::from_str`: whitespace tokens; the first token selects the
verb case-insensitively.  `UdpAddr::from_str` (URL parsing + DNS
resolution, an effectful library call) is abstracted as the `parseAddr`
oracle; the theorems below hold for every oracle. -/
def Command.fromStr (parseAddr : Str → Option UdpAddr) (s : Str) :
    Option Command :=
  match splitWs s with
  | [] => none
  | cmd :: rest =>
    if upStr cmd = "STREAM".toList then
      match rest with
      | [] => none
      | a :: rest2 =>
        match parseAddr a with
        | none => none
        | some addr =>
          match rest2 with
          | [] => none
          | t :: rest3 =>
            match Tickers.fromStr t with
            | none => none
            | some tk =>
              if rest3 = [] then some (.stream addr tk) else none
    else if upStr cmd = "PING".toList then some .ping
    else none

/-! ### Stock quotes (`common/src/quote.rs`) -/

/-- `StockQuote`: topic, decimal price, `u32` volume, `u64` timestamp. -/
structure StockQuote where
  ticker : Str
  price : Dec
  volume : ℕ
  timestamp : ℕ
  deriving DecidableEq

namespace StockQuote

/-- The Rust struct's type-level invariants: representable `Decimal`,
`u32` volume, `u64` timestamp. -/
def WF (q : StockQuote) : Prop :=
  q.price.Valid ∧ q.volume < 2 ^ 32 ∧ q.timestamp < 2 ^ 64

/-- `StockQuote::new` with the wall clock passed explicitly (`now` =
milliseconds relative to the epoch; negative = pre-epoch clock anomaly,
`≥ 2^64` = `u64::try_from` overflow). -/
def new (ticker : Str) (price : Dec) (volume : ℕ) (now : ℤ) :
    Option StockQuote :=
  if ticker = [] then none
  else if ticker.contains '|' then none
  else if now < 0 ∨ (2 : ℤ) ^ 64 ≤ now then none
  else some ⟨ticker, price, volume, now.toNat⟩

/-- `Display`: `ticker|price|volume|timestamp`. -/
def display (q : StockQuote) : Str :=
  q.ticker ++ '|' :: (Dec.render q.price ++ '|' ::
    (natRender q.volume ++ '|' :: natRender q.timestamp))

end StockQuote

/-! ### JSON form of a quote (`serde_json` + `rust_decimal` serde) -/

/-- One character of a JSON string as `serde_json` escapes it. -/
def jsonEscapeChar (c : Char) : Str :=
  if c = '"' then ['\\', '"']
  else if c = '\\' then ['\\', '\\']
  else if c.toNat = 8 then ['\\', 'b']
  else if c.toNat = 9 then ['\\', 't']
  else if c.toNat = 10 then ['\\', 'n']
  else if c.toNat = 12 then ['\\', 'f']
  else if c.toNat = 13 then ['\\', 'r']
  else if c.toNat < 32 then
    ['\\', 'u', '0', '0', Nat.digitChar (c.toNat / 16),
      Nat.digitChar (c.toNat % 16)]
  else [c]

/-- A JSON string literal. -/
def jsonString (s : Str) : Str :=
  '"' :: ((s.map jsonEscapeChar).flatten ++ ['"'])

namespace StockQuote

/-- `serde_json::to_string` of a quote: object with the four fields in
struct order; `Decimal` serialises as a string of its `Display` form
(`rust_decimal`'s default serde representation). -/
def toJson (q : StockQuote) : Str :=
  "\x7b\"ticker\":".toList ++ jsonString q.ticker ++
  (",\"price\":".toList ++ jsonString (Dec.render q.price) ++
  (",\"volume\":".toList ++ natRender q.volume ++
  (",\"timestamp\":".toList ++ natRender q.timestamp ++ ['\x7d'])))

/-- `StockQuote::to_bytes`: the UTF-8 bytes of `to_json` (serialisation
of this struct cannot fail, so the `Display` fallback is dead code). -/
def toBytes (q : StockQuote) : Str := toJson q

end StockQuote

/-! ### JSON parsing (the `serde_json::from_str::<StockQuote>` fragment) -/

/-- JSON whitespace. -/
def jws (c : Char) : Bool :=
  c.toNat = 32 || c.toNat = 9 || c.toNat = 10 || c.toNat = 13

/-- JSON values the quote struct exercises: strings and unsigned
integers (any other value shape makes the typed field fail). -/
inductive JVal where
  | str (s : Str)
  | num (n : ℕ)
  deriving DecidableEq

/-- Short JSON escapes. -/
def jsonUnescape (c : Char) : Option Char :=
  if c = '"' then some '"'
  else if c = '\\' then some '\\'
  else if c = '/' then some '/'
  else if c = 'b' then some (Char.ofNat 8)
  else if c = 'f' then some (Char.ofNat 12)
  else if c = 'n' then some (Char.ofNat 10)
  else if c = 'r' then some (Char.ofNat 13)
  else if c = 't' then some (Char.ofNat 9)
  else none

def hexVal (c : Char) : Option ℕ :=
  if 48 ≤ c.toNat ∧ c.toNat ≤ 57 then some (c.toNat - 48)
  else if 97 ≤ c.toNat ∧ c.toNat ≤ 102 then some (c.toNat - 87)
  else if 65 ≤ c.toNat ∧ c.toNat ≤ 70 then some (c.toNat - 55)
  else none

/-- Body of a JSON string after its opening quote: content and rest. -/
def jstr : Str → Option (Str × Str)
  | [] => none
  | c :: cs =>
    if c = '"' then some ([], cs)
    else if c = '\\' then
      match cs with
      | [] => none
      | e :: cs2 =>
        if e = 'u' then
          match cs2 with
          | h1 :: h2 :: h3 :: h4 :: cs3 =>
            match hexVal h1, hexVal h2, hexVal h3, hexVal h4 with
            | some a, some b, some g, some d =>
              match jstr cs3 with
              | some (p, r) =>
                some (Char.ofNat (((a * 16 + b) * 16 + g) * 16 + d) :: p, r)
              | none => none
            | _, _, _, _ => none
          | _ => none
        else
          match jsonUnescape e with
          | none => none
          | some d =>
            match jstr cs2 with
            | some (p, r) => some (d :: p, r)
            | none => none
    else if c.toNat < 32 then none
    else
      match jstr cs with
      | some (p, r) => some (c :: p, r)
      | none => none

/-- One JSON value (string or unsigned-integer run). -/
def jval (s : Str) : Option (JVal × Str) :=
  match s with
  | [] => none
  | c :: cs =>
    if c = '"' then
      match jstr cs with
      | some (p, r) => some (.str p, r)
      | none => none
    else if isDigitB c then
      some (.num ((c :: cs.takeWhile isDigitB).foldl
        (fun a x => 10 * a + digitVal x) 0), cs.dropWhile isDigitB)
    else none

/-- The members of a JSON object, entered just after `\x7b` or a `,`. -/
def jmembers : ℕ → Str → Option (List (Str × JVal) × Str)
  | 0, _ => none
  | fuel + 1, s =>
    match s.dropWhile jws with
    | [] => none
    | c :: cs =>
      if c = '"' then
        match jstr cs with
        | none => none
        | some (key, r1) =>
          match r1.dropWhile jws with
          | ':' :: r3 =>
            match jval (r3.dropWhile jws) with
            | none => none
            | some (v, r4) =>
              match r4.dropWhile jws with
              | ',' :: r6 =>
                match jmembers fuel r6 with
                | some (ms, rest) => some ((key, v) :: ms, rest)
                | none => none
              | '\x7d' :: r6 => some ([(key, v)], r6)
              | _ => none
          | _ => none
      else none

/-- A known field must occur exactly once (serde rejects duplicate and
missing struct fields; unknown members are ignored by default). -/
def findField (ms : List (Str × JVal)) (k : Str) : Option JVal :=
  match ms.filter (fun p => decide (p.1 = k)) with
  | [v] => some v.2
  | _ => none

/-- Build the struct from the parsed members; `price` deserialises from
a string through `Decimal::from_str` (`rust_decimal` also accepts plain
integers); `volume`/`timestamp` must fit `u32`/`u64`. -/
def quoteOfMembers (ms : List (Str × JVal)) : Option StockQuote :=
  match findField ms ("ticker".toList), findField ms ("price".toList),
      findField ms ("volume".toList), findField ms ("timestamp".toList) with
  | some (.str t), some pv, some (.num v), some (.num ts) =>
    if v < 2 ^ 32 ∧ ts < 2 ^ 64 then
      match pv with
      | .str ps =>
        match Dec.parse ps with
        | some d => some ⟨t, d, v, ts⟩
        | none => none
      | .num n => some ⟨t, ⟨(n : ℤ), 0⟩, v, ts⟩
    else none
  | _, _, _, _ => none

/-- `StockQuote::from_json` (`serde_json::from_str`). -/
def StockQuote.fromJson (s : Str) : Option StockQuote :=
  match s.dropWhile jws with
  | [] => none
  | c :: cs =>
    if c = '\x7b' then
      match jmembers (cs.length + 1) cs with
      | none => none
      | some (ms, rest) =>
        if rest.dropWhile jws = [] then quoteOfMembers ms else none
    else none

/-- `StockQuote::from_str`: the JSON branch when the trimmed input
starts with a brace, otherwise the pipe-delimited form with exactly
four fields. -/
def StockQuote.fromStr (s : Str) : Option StockQuote :=
  if (trimStart s).head? = some '\x7b' then StockQuote.fromJson s
  else
    match splitOnChar '|' s with
    | [t, p, v, ts] =>
      match Dec.parse p with
      | none => none
      | some price =>
        match natParse v with
        | none => none
        | some vol =>
          if 2 ^ 32 ≤ vol then none
          else
            match natParse ts with
            | none => none
            | some tsv =>
              if 2 ^ 64 ≤ tsv then none
              else some ⟨t, price, vol, tsv⟩
    | _ => none

/-! ### Association lists (HashMap with explicit iteration order) -/

/-- Lookup at the first matching key (`HashMap::get`). -/
def alLookup {α β : Type} [DecidableEq α] : List (α × β) → α → Option β
  | [], _ => none
  | p :: ps, k => if p.1 = k then some p.2 else alLookup ps k

/-- Replace the value at a key in place, appending when absent
(`HashMap::insert` / `entry().or_insert()` + assignment). -/
def alSet {α β : Type} [DecidableEq α] (k : α) (v : β) :
    List (α × β) → List (α × β)
  | [] => [(k, v)]
  | p :: ps => if p.1 = k then (k, v) :: ps else p :: alSet k v ps

/-! ### Price generator (`server/src/generator.rs`) -/

namespace Gen

/-- `MAX_PRICE_CHANGE_PERCENT = dec!(0.01)`. -/
def maxChange : Dec := ⟨1, 2⟩
/-- `TICKER_MIN_PRICE = dec!(1.00)`. -/
def minPrice : Dec := ⟨100, 2⟩
/-- `UNKNOWN_TICKER_DEFAULT_PRICE = dec!(100.00)`. -/
def defaultPrice : Dec := ⟨10000, 2⟩

/-- `HIGH_VOLUME_TICKERS`. -/
def highVolumeTickers : List Str :=
  ["AAPL".toList, "MSFT".toList, "TSLA".toList, "NVDA".toList,
   "GOOGL".toList, "AMZN".toList, "META".toList]

def isHighVolumeTicker (t : Str) : Bool :=
  highVolumeTickers.any (fun x => decide (x = t))

/-- `rng.gen_range(0..n)`: the raw random draw reduced into range
(determinisation of the rng). -/
def genRange (draw n : ℕ) : ℕ := draw % n

/-- `random_decimal(rng, mn, mx) = mn + (mx - mn) * (k / dec!(10000))`
with `k = gen_range(0..10000)`; the division is exact here. -/
def randomDecimal (mn mx : Dec) (draw : ℕ) : Dec :=
  mn.add ((mx.sub mn).mul (Dec.divTenThousand ⟨(genRange draw 10000 : ℕ), 0⟩))

/-- `random_change_factor`: `Decimal::ONE + random_decimal(-MAX, MAX)`. -/
def randomChangeFactor (draw : ℕ) : Dec :=
  Dec.add ⟨1, 0⟩ (randomDecimal (Dec.neg maxChange) maxChange draw)

/-- Generator price state (`prices: HashMap<String, Decimal>`). -/
abbrev GenState := List (Str × Dec)

/-- `QuoteGenerator::next_price`: look up the last price (default for an
unseen topic), apply the bounded factor, clamp at the floor, store. -/
def nextPrice (st : GenState) (draw : ℕ) (t : Str) : Dec × GenState :=
  let p0 := (alLookup st t).getD defaultPrice
  let p1 := Dec.maxD (p0.mul (randomChangeFactor draw)) minPrice
  (p1, alSet t p1 st)

/-- `QuoteGenerator::random_volume`. -/
def randomVolume (t : Str) (draw : ℕ) : ℕ :=
  if isHighVolumeTicker t then 1000 + genRange draw 5000
  else 100 + genRange draw 1000

/-- The effectful inputs one `generate` call consumes: two random draws
and a wall-clock reading (ms since the epoch, negative = pre-epoch). -/
structure GenInput where
  priceDraw : ℕ
  volumeDraw : ℕ
  now : ℤ

/-- `QuoteGenerator::generate`.  `next_price` runs before
`StockQuote::new`, so even a failed call moves the stored price. -/
def generate (st : GenState) (inp : GenInput) (t : Str) :
    Option StockQuote × GenState :=
  let pp := nextPrice st inp.priceDraw t
  let vol := randomVolume t inp.volumeDraw
  (StockQuote.new t pp.1 vol inp.now, pp.2)

/-- The `Default::default()` seed prices. -/
def defaultState : GenState :=
  [("AAPL".toList, ⟨28500, 2⟩), ("GOOGL".toList, ⟨31500, 2⟩),
   ("TSLA".toList, ⟨42500, 2⟩), ("MSFT".toList, ⟨49000, 2⟩),
   ("AMZN".toList, ⟨23500, 2⟩), ("NVDA".toList, ⟨18000, 2⟩),
   ("META".toList, ⟨64000, 2⟩)]

/-- `QuoteGenerator::generate_batch`:
`tickers.iter().map(|t| self.generate(t)).collect::<Result<Vec<_>>>()` —
the lazy collect short-circuits at the first failure, so later topics
are not generated at all.  `f` supplies each call's effectful inputs,
`i` the next input index; both final state and index are returned. -/
def generateBatch (st : GenState) (f : ℕ → GenInput) (i : ℕ) :
    List Str → Option (List StockQuote) × GenState × ℕ
  | [] => (some [], st, i)
  | t :: ts =>
    let r := generate st (f i) t
    match r.1 with
    | none => (none, r.2, i + 1)
    | some q =>
      match generateBatch r.2 f (i + 1) ts with
      | (none, st2, j) => (none, st2, j)
      | (some l, st2, j) => (some (q :: l), st2, j)

/-- A run of `generate` calls on one generator: per-call results plus
the final state. -/
def genRun (st : GenState) :
    List (GenInput × Str) → List (Option StockQuote) × GenState
  | [] => ([], st)
  | c :: cs =>
    let r := generate st c.1 c.2
    let rest := genRun r.2 cs
    (r.1 :: rest.1, rest.2)

end Gen

/-! ### Streaming unit (`ClientStreamer`, `server/src/client_handler.rs`) -/

/-- What one `stream_loop` iteration observes: the stop channel's
`try_recv` result (signal or disconnection), or — when that channel is
empty — the quote channel's `recv_timeout` result (timeout, a quote
tagged with whether the UDP `send_to` would succeed, or disconnection). -/
inductive StreamEvent where
  | stopSignal
  | stopClosed
  | timeout
  | quoteClosed
  | quote (q : StockQuote) (sendOk : Bool)
  deriving DecidableEq

/-- Why `stream_loop` returned. -/
inductive StreamExit where
  | stopRequested
  | queueClosed
  | sendError
  deriving DecidableEq

/-- `ClientStreamer::maybe_send_quote`: the datagram payload put on the
wire for one quote — `none` when the unit's ticker set filters it out. -/
def maybeSendPayload (tickers : Tickers) (q : StockQuote) : Option Str :=
  if tickers.containsT q.ticker then some (StockQuote.toBytes q) else none

/-- `ClientStreamer::stream_loop` (+ `maybe_send_quote`): quotes outside
the ticker set are skipped silently; a failed `send_to` propagates out
of the loop through `?`.  Returns the successfully sent quotes and the
exit reason (`none` while the event list ends with the loop still
running). -/
def streamLoop (tickers : Tickers) :
    List StreamEvent → List StockQuote × Option StreamExit
  | [] => ([], none)
  | e :: rest =>
    match e with
    | .stopSignal => ([], some .stopRequested)
    | .stopClosed => ([], some .stopRequested)
    | .timeout => streamLoop tickers rest
    | .quoteClosed => ([], some .queueClosed)
    | .quote q ok =>
      if tickers.containsT q.ticker then
        if ok then
          let r := streamLoop tickers rest
          (q :: r.1, r.2)
        else ([], some .sendError)
      else streamLoop tickers rest

/-! ### Subscriber registry (`ClientInfo` / `ClientManager`) -/

/-- A registry record; `lastPing` is the `Instant` in ms on a monotonic
clock. -/
structure ClientInfo where
  target : UdpAddr
  tickers : Tickers
  lastPing : ℕ
  sourceIp : ℕ

/-- `ClientInfo::touch`. -/
def ClientInfo.touch (c : ClientInfo) (now : ℕ) : ClientInfo :=
  ⟨c.target, c.tickers, now, c.sourceIp⟩

/-- `ClientInfo::is_expired`: `last_ping.elapsed() > timeout`. -/
def ClientInfo.isExpired (c : ClientInfo) (now timeout : ℕ) : Bool :=
  decide (timeout < now - c.lastPing)

/-- The registry map contents; a HashMap's iteration order is
arbitrary, so the theorems quantify over this list. -/
abbrev Clients := List (UdpAddr × ClientInfo)

/-- `ClientManager::update_ping_by_source`:
`values_mut().find(|c| c.source_ip == addr.ip())` touches the first
record whose stored source IP equals the sender's IP; the sender's
port plays no role. -/
def updatePingBySource (now : ℕ) (src : SockAddr) : Clients → Bool × Clients
  | [] => (false, [])
  | (k, c) :: rest =>
    if c.sourceIp = src.ip then (true, (k, c.touch now) :: rest)
    else
      let r := updatePingBySource now src rest
      (r.1, (k, c) :: r.2)

/-- `ClientManager::register`: insert-or-replace with a fresh
heartbeat. -/
def register (target : UdpAddr) (tickers : Tickers) (srcIp : ℕ) (now : ℕ)
    (cl : Clients) : Clients :=
  alSet target ⟨target, tickers, now, srcIp⟩ cl

/-- `ClientManager::remove_expired` (`retain`): drops every expired
record against one `now`, returning the removed targets. -/
def removeExpired (now timeout : ℕ) (cl : Clients) :
    List UdpAddr × Clients :=
  ((cl.filter (fun p => p.2.isExpired now timeout)).map Prod.fst,
   cl.filter (fun p => !p.2.isExpired now timeout))

/-! ### Orchestrator shared state (`server/src/server.rs`) -/

/-- The state a subscriber lifecycle step touches: the registry plus the
quote-channel and stop-channel tables.  The channel handles carry no
state of their own, so the tables are modelled by their key sets. -/
structure SrvState where
  reg : Clients
  chans : List SockAddr
  stops : List SockAddr

def memB (l : List SockAddr) (a : SockAddr) : Bool :=
  l.any (fun x => decide (x = a))

/-- Key-set effect of `HashMap::insert`. -/
def keyInsert (a : SockAddr) (l : List SockAddr) : List SockAddr :=
  if memB l a then l else a :: l

/-- `ClientManager`'s `contains_key` on the registry. -/
def regContains (cl : Clients) (t : UdpAddr) : Bool :=
  cl.any (fun p => decide (p.1 = t))

/-- One subscriber-lifecycle step as the orchestrator performs it. -/
inductive SrvOp where
  | subscribe (target : UdpAddr) (tickers : Tickers) (srcIp : ℕ) (now : ℕ)
  | heartbeat (src : SockAddr) (now : ℕ)
  | sweep (now : ℕ)

/-- `handle_stream_command` (registry insert + both channel inserts),
`ping_listener_loop` (heartbeat touch), and `cleanup_loop`
(`remove_expired`, then channel/stop removal + stop signal for each
removed target). -/
def applyOp (timeout : ℕ) (st : SrvState) : SrvOp → SrvState
  | .subscribe t tk ip now =>
    ⟨register t tk ip now st.reg,
     keyInsert t.socketAddr st.chans, keyInsert t.socketAddr st.stops⟩
  | .heartbeat src now =>
    ⟨(updatePingBySource now src st.reg).2, st.chans, st.stops⟩
  | .sweep now =>
    let rm := removeExpired now timeout st.reg
    let rmAddrs := rm.1.map UdpAddr.socketAddr
    ⟨rm.2,
     st.chans.filter (fun a => !(rmAddrs.any (fun x => decide (x = a)))),
     st.stops.filter (fun a => !(rmAddrs.any (fun x => decide (x = a))))⟩

/-- The server starts with no subscribers and empty channel tables. -/
def initState : SrvState := ⟨[], [], []⟩

/-- State after a sequence of lifecycle steps. -/
def runOps (timeout : ℕ) (ops : List SrvOp) : SrvState :=
  ops.foldl (applyOp timeout) initState

/-! ### Generator lemmas -/

theorem alLookup_alSet_self {α β : Type} [DecidableEq α] (k : α) (v : β)
    (l : List (α × β)) : alLookup (alSet k v l) k = some v := by
  induction l with
  | nil => simp [alSet, alLookup]
  | cons p ps ih =>
    simp only [alSet]
    split
    · simp [alLookup]
    · simp only [alLookup]
      rw [if_neg (by assumption)]
      exact ih

theorem alLookup_alSet_other {α β : Type} [DecidableEq α] {k k' : α}
    (v : β) (l : List (α × β)) (h : k' ≠ k) :
    alLookup (alSet k v l) k' = alLookup l k' := by
  induction l with
  | nil =>
    simp only [alSet, alLookup]
    rw [if_neg (fun he => h he.symm)]
  | cons p ps ih =>
    by_cases hp : p.1 = k
    · simp only [alSet, if_pos hp, alLookup]
      rw [if_neg (fun he => h he.symm), if_neg (by rw [hp]; exact fun he => h he.symm)]
    · simp only [alSet, if_neg hp, alLookup]
      by_cases hp' : p.1 = k'
      · rw [if_pos hp', if_pos hp']
      · rw [if_neg hp', if_neg hp']
        exact ih

theorem minPrice_val : Gen.minPrice.val = 1 := by
  norm_num [Gen.minPrice, Dec.val]

/-- The clamp makes every price `next_price` returns at least the floor. -/
theorem nextPrice_floor (st : Gen.GenState) (draw : ℕ) (t : Str) :
    (1 : ℚ) ≤ (Gen.nextPrice st draw t).1.val := by
  unfold Gen.nextPrice
  simp only
  rw [Dec.val_maxD, minPrice_val]
  exact le_max_right _ _

/-- A quote returned by `generate` carries exactly the `next_price`
result. -/
theorem generate_price {st : Gen.GenState} {inp : Gen.GenInput} {t : Str}
    {q : StockQuote} (h : (Gen.generate st inp t).1 = some q) :
    q.price = (Gen.nextPrice st inp.priceDraw t).1 := by
  unfold Gen.generate StockQuote.new at h
  simp only at h
  split at h
  · exact absurd h (by simp)
  · split at h
    · exact absurd h (by simp)
    · split at h
      · exact absurd h (by simp)
      · simp only [Option.some.injEq] at h
        rw [← h]

/-- `generate` stores the `next_price` result whether or not the quote
construction succeeds. -/
theorem generate_state (st : Gen.GenState) (inp : Gen.GenInput) (t : Str) :
    (Gen.generate st inp t).2 =
      alSet t (Gen.nextPrice st inp.priceDraw t).1 st := rfl

/-- The change factor lies within 1 ± `MAX_PRICE_CHANGE_PERCENT`. -/
theorem randomChangeFactor_bound (draw : ℕ) :
    |((Gen.randomChangeFactor draw).val - 1)| ≤ 1 / 100 := by
  have hk : Gen.genRange draw 10000 < 10000 := Nat.mod_lt _ (by norm_num)
  have hval : (Gen.randomChangeFactor draw).val =
      1 + (-(1 / 100) + 1 / 50 * ((Gen.genRange draw 10000 : ℕ) / 10000)) := by
    unfold Gen.randomChangeFactor Gen.randomDecimal
    rw [Dec.val_add, Dec.val_add, Dec.val_mul, Dec.val_sub, Dec.val_neg,
      Dec.val_divTenThousand]
    norm_num [Dec.val, Gen.maxChange]
  rw [hval]
  have h0 : (0 : ℚ) ≤ (Gen.genRange draw 10000 : ℕ) / 10000 := by positivity
  have h1 : ((Gen.genRange draw 10000 : ℕ) : ℚ) / 10000 < 1 := by
    rw [div_lt_one (by norm_num)]
    exact_mod_cast hk
  rw [abs_le]
  constructor <;> linarith

/-- One `next_price` step moves the stored price by at most 1 % of the
previous price (including when the floor clamp fires). -/
theorem nextPrice_bound (st : Gen.GenState) (draw : ℕ) (t : Str) (p0 : Dec)
    (hl : alLookup st t = some p0) (hp : 1 ≤ p0.val) :
    |((Gen.nextPrice st draw t).1.val - p0.val)| ≤ 1 / 100 * p0.val := by
  unfold Gen.nextPrice
  simp only [hl, Option.getD_some]
  rw [Dec.val_maxD, minPrice_val, Dec.val_mul]
  have hf := randomChangeFactor_bound draw
  rw [abs_le] at hf
  have hp0 : 0 < p0.val := by linarith
  rcases le_or_lt 1 (p0.val * (Gen.randomChangeFactor draw).val) with hcl | hcl
  · rw [max_eq_left hcl]
    have : p0.val * (Gen.randomChangeFactor draw).val - p0.val =
        p0.val * ((Gen.randomChangeFactor draw).val - 1) := by ring
    rw [this, abs_mul, abs_of_pos hp0]
    calc p0.val * |(Gen.randomChangeFactor draw).val - 1|
        ≤ p0.val * (1 / 100) := by
          exact mul_le_mul_of_nonneg_left (abs_le.mpr hf) (le_of_lt hp0)
      _ = 1 / 100 * p0.val := by ring
  · rw [max_eq_right (le_of_lt hcl)]
    rw [abs_le]
    constructor
    · nlinarith
    · nlinarith

/-- Calls for other topics leave a topic's stored price unchanged. -/
theorem genRun_preserve (cs : List (Gen.GenInput × Str)) (st : Gen.GenState)
    (t : Str) (h : ∀ c ∈ cs, c.2 ≠ t) :
    alLookup (Gen.genRun st cs).2 t = alLookup st t := by
  induction cs generalizing st with
  | nil => rfl
  | cons c cs ih =>
    simp only [Gen.genRun]
    rw [ih _ (fun x hx => h x (List.mem_cons_of_mem _ hx)), generate_state,
      alLookup_alSet_other _ _ (fun he => h c (List.mem_cons_self _ _) he.symm)]

/-- C5: on any generator state — the default seeds, prices supplied to
`with_prices`, `with_tickers` seeds, or topics never seen before — every
quote a run of `generate` calls returns has a price of at least the
configured floor `TICKER_MIN_PRICE = 1.00`: the clamp runs after every
perturbation, so no returned price is non-positive or below the floor. -/
theorem c5_generate_price_floor (st0 : Gen.GenState)
    (calls : List (Gen.GenInput × Str)) (i : ℕ) (q : StockQuote)
    (h : (Gen.genRun st0 calls).1.get? i = some (some q)) :
    (1 : ℚ) ≤ q.price.val := by
  induction calls generalizing st0 i with
  | nil => simp [Gen.genRun] at h
  | cons c cs ih =>
    simp only [Gen.genRun] at h
    cases i with
    | zero =>
      rw [List.get?_cons_zero, Option.some.injEq] at h
      rw [generate_price h]
      exact nextPrice_floor _ _ _
    | succ n =>
      rw [List.get?_cons_succ] at h
      exact ih _ _ h

theorem c5_generate_price_floor_witness :
    (1 : ℚ) ≤ (StockQuote.mk ("AAPL".toList) ⟨28215000000, 8⟩ 1000 0).price.val :=
  c5_generate_price_floor Gen.defaultState [(⟨0, 0, 0⟩, "AAPL".toList)] 0 _
    (by decide)

/-- C6: two consecutive successful `generate` calls for the same topic
on one generator — no intervening call for that topic — move the price
by at most `MAX_PRICE_CHANGE_PERCENT` (1 %) of the earlier returned
price, including when the floor clamp fires between the two calls.
Decimal arithmetic is modelled exactly, so the bound holds with zero
rounding tolerance. -/
theorem c6_consecutive_price_change (st : Gen.GenState)
    (c1 c2 : Gen.GenInput) (mid : List (Gen.GenInput × Str)) (t : Str)
    (q1 q2 : StockQuote)
    (h1 : (Gen.generate st c1 t).1 = some q1)
    (hmid : ∀ m ∈ mid, m.2 ≠ t)
    (h2 : (Gen.generate (Gen.genRun (Gen.generate st c1 t).2 mid).2 c2 t).1
      = some q2) :
    |q2.price.val - q1.price.val| ≤ Gen.maxChange.val * q1.price.val := by
  have hq1 : q1.price = (Gen.nextPrice st c1.priceDraw t).1 := generate_price h1
  have hfloor : (1 : ℚ) ≤ q1.price.val := by
    rw [hq1]; exact nextPrice_floor _ _ _
  have hst1 : alLookup (Gen.generate st c1 t).2 t = some q1.price := by
    rw [generate_state, hq1]; exact alLookup_alSet_self _ _ _
  have hst2 : alLookup (Gen.genRun (Gen.generate st c1 t).2 mid).2 t
      = some q1.price := by
    rw [genRun_preserve mid _ t hmid]; exact hst1
  have hmc : Gen.maxChange.val = 1 / 100 := by norm_num [Gen.maxChange, Dec.val]
  rw [generate_price h2, hmc]
  exact nextPrice_bound _ _ _ q1.price hst2 hfloor

theorem c6_consecutive_price_change_witness :
    |(StockQuote.mk ("AAPL".toList) ⟨27932850000000000, 14⟩ 1000 0).price.val -
      (StockQuote.mk ("AAPL".toList) ⟨28215000000, 8⟩ 1000 0).price.val| ≤
      Gen.maxChange.val *
        (StockQuote.mk ("AAPL".toList) ⟨28215000000, 8⟩ 1000 0).price.val :=
  c6_consecutive_price_change Gen.defaultState ⟨0, 0, 0⟩ ⟨0, 0, 0⟩ []
    ("AAPL".toList) _ _ (by decide)
    (fun m hm => absurd hm (List.not_mem_nil m)) (by decide)

/-! ### Character and trim lemmas -/

theorem char_toNat_ofNat {n : ℕ} (h : n < 55296) :
    (Char.ofNat n).toNat = n := by
  unfold Char.ofNat
  rw [dif_pos (Or.inl h)]
  rfl

theorem upChar_def (c : Char) : upChar c =
    if 97 ≤ c.toNat ∧ c.toNat ≤ 122 then Char.ofNat (c.toNat - 32) else c := rfl

theorem upChar_toNat_of_lower {c : Char} (h : 97 ≤ c.toNat ∧ c.toNat ≤ 122) :
    (upChar c).toNat = c.toNat - 32 := by
  rw [upChar_def, if_pos h]
  exact char_toNat_ofNat (by omega)

theorem upChar_of_not_lower {c : Char} (h : ¬(97 ≤ c.toNat ∧ c.toNat ≤ 122)) :
    upChar c = c := by
  rw [upChar_def, if_neg h]

theorem isWs_false_of_range {c : Char} (h1 : 65 ≤ c.toNat)
    (h2 : c.toNat ≤ 122) : isWs c = false := by
  rw [Bool.eq_false_iff]
  intro hw
  simp only [isWs, Bool.or_eq_true, Bool.and_eq_true, decide_eq_true_eq] at hw
  omega

/-- Uppercasing does not change whitespace-ness. -/
theorem isWs_upChar (c : Char) : isWs (upChar c) = isWs c := by
  by_cases h : 97 ≤ c.toNat ∧ c.toNat ≤ 122
  · have hup : (upChar c).toNat = c.toNat - 32 := upChar_toNat_of_lower h
    rw [isWs_false_of_range (c := upChar c) (by omega) (by omega),
      isWs_false_of_range (by omega) (by omega)]
  · rw [upChar_of_not_lower h]

/-- ASCII uppercasing is idempotent. -/
theorem upChar_upChar (c : Char) : upChar (upChar c) = upChar c := by
  by_cases h : 97 ≤ c.toNat ∧ c.toNat ≤ 122
  · have hup : (upChar c).toNat = c.toNat - 32 := upChar_toNat_of_lower h
    rw [upChar_def (upChar c), hup, if_neg (by omega)]
  · rw [upChar_of_not_lower h, upChar_of_not_lower h]

theorem upStr_upStr (x : Str) : upStr (upStr x) = upStr x := by
  unfold upStr
  rw [List.map_map]
  exact List.map_congr_left (fun c _ => upChar_upChar c)

theorem upChar_ne_comma {c : Char} (h : upChar c = ',') : c = ',' := by
  by_cases hl : 97 ≤ c.toNat ∧ c.toNat ≤ 122
  · have h1 : (upChar c).toNat = c.toNat - 32 := upChar_toNat_of_lower hl
    rw [h] at h1
    have h2 : (44 : ℕ) = c.toNat - 32 := h1
    omega
  · rwa [upChar_of_not_lower hl] at h

theorem dropWhile_head_false {p : Char → Bool} {l : Str} {c : Char}
    (h : (l.dropWhile p).head? = some c) : p c = false := by
  induction l with
  | nil => simp [List.dropWhile] at h
  | cons x xs ih =>
    rw [List.dropWhile_cons] at h
    split at h
    · exact ih h
    · simp only [List.head?_cons, Option.some.injEq] at h
      subst h
      simp_all

theorem ldrop_idem (p : Char → Bool) (l : Str) :
    (l.dropWhile p).dropWhile p = l.dropWhile p := by
  induction l with
  | nil => rfl
  | cons x xs ih =>
    rw [List.dropWhile_cons]
    split
    · exact ih
    · rw [List.dropWhile_cons, if_neg (by assumption)]

/-- The trimmed string never starts with whitespace. -/
theorem trimStart_trim (x : Str) : trimStart (trim x) = trim x := by
  unfold trim trimStart
  have hsuf : (x.dropWhile isWs).reverse.dropWhile isWs <:+
      (x.dropWhile isWs).reverse := List.dropWhile_suffix isWs
  have hpre : ((x.dropWhile isWs).reverse.dropWhile isWs).reverse <+:
      x.dropWhile isWs := by
    have := hsuf.reverse
    rwa [List.reverse_reverse] at this
  obtain ⟨t, ht⟩ := hpre
  cases hw : ((x.dropWhile isWs).reverse.dropWhile isWs).reverse with
  | nil => rfl
  | cons c ws =>
    rw [hw] at ht
    have hc : isWs c = false := by
      refine dropWhile_head_false (p := isWs) (l := x) ?_
      rw [← ht]
      rfl
    rw [List.dropWhile_cons, if_neg (by rw [hc]; exact Bool.false_ne_true)]

/-- Trimming is idempotent. -/
theorem trim_trim (x : Str) : trim (trim x) = trim x := by
  have step : trim (trim x) =
      ((trimStart (trim x)).reverse.dropWhile isWs).reverse := rfl
  rw [step, trimStart_trim x]
  have h2 : (trim x).reverse = (trimStart x).reverse.dropWhile isWs := by
    show (((trimStart x).reverse.dropWhile isWs).reverse).reverse = _
    rw [List.reverse_reverse]
  rw [h2, ldrop_idem]
  rfl

theorem upStr_reverse (u : Str) : (upStr u).reverse = upStr u.reverse :=
  (List.map_reverse _ _).symm

theorem ldrop_upStr (l : Str) :
    (upStr l).dropWhile isWs = upStr (l.dropWhile isWs) := by
  unfold upStr
  rw [List.dropWhile_map]
  have hfun : (isWs ∘ upChar) = isWs := funext isWs_upChar
  rw [hfun]

/-- Trimming commutes with uppercasing. -/
theorem trim_upStr (x : Str) : trim (upStr x) = upStr (trim x) := by
  show (((upStr x).dropWhile isWs).reverse.dropWhile isWs).reverse = _
  rw [ldrop_upStr, upStr_reverse, ldrop_upStr, upStr_reverse]
  rfl

theorem mem_trim {c : Char} {x : Str} (h : c ∈ trim x) : c ∈ x := by
  unfold trim trimStart at h
  rw [List.mem_reverse] at h
  have h1 := (List.dropWhile_suffix isWs).subset h
  rw [List.mem_reverse] at h1
  exact (List.dropWhile_suffix isWs).subset h1

/-- No segment produced by `split(sep)` contains the separator. -/
theorem mem_splitOnChar {sep : Char} {s : Str} :
    ∀ x ∈ splitOnChar sep s, sep ∉ x := by
  induction s with
  | nil =>
    intro x hx
    simp only [splitOnChar, List.mem_singleton] at hx
    subst hx
    simp
  | cons c cs ih =>
    intro x hx
    simp only [splitOnChar] at hx
    cases hsp : splitOnChar sep cs with
    | nil => exact absurd hsp (splitOnChar_ne_nil _ _)
    | cons h' t' =>
      rw [hsp] at hx
      dsimp only at hx
      by_cases hc : c = sep
      · rw [if_pos hc] at hx
        rcases List.mem_cons.mp hx with rfl | hx2
        · simp
        · exact ih x (by rw [hsp]; exact hx2)
      · rw [if_neg hc] at hx
        rcases List.mem_cons.mp hx with rfl | hx2
        · intro hmem
          rcases List.mem_cons.mp hmem with heq | hmem2
          · exact hc heq.symm
          · exact ih h' (by rw [hsp]; exact List.mem_cons_self _ _) hmem2
        · exact ih x (by rw [hsp]; exact List.mem_cons_of_mem _ hx2)

/-- Splitting inverts comma-joining for comma-free non-empty segments. -/
theorem splitOnChar_joinComma (l : List Str) (hl : l ≠ [])
    (h : ∀ x ∈ l, ',' ∉ x) : splitOnChar ',' (joinComma l) = l := by
  induction l with
  | nil => exact absurd rfl hl
  | cons x xs ih =>
    cases xs with
    | nil =>
      show splitOnChar ',' x = [x]
      exact splitOnChar_of_not_mem (h x (List.mem_cons_self _ _))
    | cons y ys =>
      show splitOnChar ',' (x ++ ',' :: joinComma (y :: ys)) = x :: y :: ys
      rw [splitOnChar_append _ (h x (List.mem_cons_self _ _)),
        ih (by simp) (fun z hz => h z (List.mem_cons_of_mem _ hz))]

/-- Every element a successful `Tickers` parse produces is non-empty,
canonically trimmed-and-uppercased, and comma-free. -/
theorem tickers_fromStr_elems {s : Str} {tk : Tickers}
    (h : Tickers.fromStr s = some tk) :
    ∀ e ∈ tk.val, e ≠ [] ∧ upStr (trim e) = e ∧ ',' ∉ e := by
  simp only [Tickers.fromStr] at h
  split at h
  · exact absurd h (by simp)
  · simp only [Option.some.injEq] at h
    subst h
    intro e he
    have hf := List.mem_filter.mp he
    obtain ⟨t, ht, rfl⟩ := List.mem_map.mp hf.1
    refine ⟨?_, ?_, ?_⟩
    · intro he0
      rw [he0] at hf
      exact absurd hf.2 (by decide)
    · rw [trim_upStr, trim_trim, upStr_upStr]
    · intro hcm
      have hcm' : ',' ∈ List.map upChar (trim t) := hcm
      obtain ⟨c, hcmem, hceq⟩ := List.mem_map.mp hcm'
      have hc : c = ',' := upChar_ne_comma hceq
      subst hc
      exact mem_splitOnChar t ht (mem_trim hcmem)

/-- C7 counterexample: topic-set parsing does NOT drop duplicates — the
accepted input `"AAPL,AAPL"` parses to a set holding `AAPL` twice. -/
theorem c7_duplicates_not_dropped :
    Tickers.fromStr ("AAPL,AAPL".toList) =
      some ⟨["AAPL".toList, "AAPL".toList], by decide⟩ ∧
    (["AAPL".toList, "AAPL".toList] : List Str).count ("AAPL".toList) = 2 := by
  constructor
  · decide
  · decide

/-- C7 amended: topic-set parsing trims, uppercases and silently drops
blank entries, but keeps duplicate entries (in order); the parse of the
serialised form reproduces the parsed Topic Set exactly, duplicates
included. -/
theorem c7_parse_serialize (s : Str) (tk : Tickers)
    (h : Tickers.fromStr s = some tk) :
    Tickers.fromStr (Tickers.display tk) = some tk := by
  have helems := tickers_fromStr_elems h
  obtain ⟨l, hlne⟩ := tk
  show Tickers.fromStr (joinComma l) = _
  simp only [Tickers.fromStr]
  rw [splitOnChar_joinComma l hlne (fun x hx => (helems x hx).2.2)]
  have hmap : l.map (fun t => upStr (trim t)) = l.map (fun x => x) :=
    List.map_congr_left (fun x hx => (helems x hx).2.1)
  rw [hmap, List.map_id']
  have hfil : l.filter (fun t => !t.isEmpty) = l := by
    rw [List.filter_eq_self]
    intro x hx
    cases hx2 : x with
    | nil => exact absurd hx2 ((helems x hx).1)
    | cons c cs => rfl
  rw [hfil, dif_neg hlne]

theorem c7_parse_serialize_witness :
    Tickers.fromStr
        (Tickers.display ⟨["AAPL".toList, "TSLA".toList], by decide⟩) =
      some ⟨["AAPL".toList, "TSLA".toList], by decide⟩ :=
  c7_parse_serialize ("AAPL,TSLA".toList) _ (by decide)

/-- A quote returned by `generate` carries the requested topic. -/
theorem generate_ticker {st : Gen.GenState} {inp : Gen.GenInput} {t : Str}
    {q : StockQuote} (h : (Gen.generate st inp t).1 = some q) :
    q.ticker = t := by
  unfold Gen.generate StockQuote.new at h
  simp only at h
  split at h
  · exact absurd h (by simp)
  · split at h
    · exact absurd h (by simp)
    · split at h
      · exact absurd h (by simp)
      · simp only [Option.some.injEq] at h
        rw [← h]

/-- C4 counterexample: `generate_batch` is fail-fast, not collecting.
On the topic list `["A|B", "GOOD"]` the first topic's `generate` fails
(its ticker holds the field separator), the whole batch returns the
error, and `GOOD` — whose own `generate` call succeeds — is never
generated: no result is produced for it and its price entry is never
created. -/
theorem c4_batch_fail_suppresses :
    (Gen.generateBatch Gen.defaultState (fun _ => ⟨0, 0, 0⟩) 0
        ["A|B".toList, "GOOD".toList]).1 = none ∧
    (Gen.generate Gen.defaultState ⟨0, 0, 0⟩ ("GOOD".toList)).1.isSome = true ∧
    alLookup (Gen.generateBatch Gen.defaultState (fun _ => ⟨0, 0, 0⟩) 0
        ["A|B".toList, "GOOD".toList]).2.1 ("GOOD".toList) = none := by
  refine ⟨by decide, by decide, by decide⟩

/-- C4 amended: `generate_batch` applies `generate` to each topic in the
list's order but collects through `Result`, which is fail-fast: the
first failing topic aborts the batch with that error, and the remaining
topics are not generated (the state stays as it was right after the
failing call); only when every topic succeeds is the full result list
produced, one quote per topic in order. -/
theorem c4_batch_fail_fast :
    (∀ (st : Gen.GenState) (f : ℕ → Gen.GenInput) (i : ℕ) (t : Str)
        (ts : List Str),
      (Gen.generate st (f i) t).1 = none →
      Gen.generateBatch st f i (t :: ts) =
        (none, (Gen.generate st (f i) t).2, i + 1)) ∧
    (∀ (st : Gen.GenState) (f : ℕ → Gen.GenInput) (i : ℕ) (ts : List Str)
        (l : List StockQuote),
      (Gen.generateBatch st f i ts).1 = some l →
      ∀ k, (l.get? k).map StockQuote.ticker = ts.get? k) := by
  constructor
  · intro st f i t ts h
    simp only [Gen.generateBatch, h]
  · intro st f i ts
    induction ts generalizing st i with
    | nil =>
      intro l h k
      simp only [Gen.generateBatch, Option.some.injEq] at h
      subst h
      simp
    | cons t ts ih =>
      intro l h k
      simp only [Gen.generateBatch] at h
      cases hr : (Gen.generate st (f i) t).1 with
      | none => rw [hr] at h; simp at h
      | some q =>
        rw [hr] at h
        rcases hB : Gen.generateBatch (Gen.generate st (f i) t).2 f (i + 1) ts
          with ⟨res, st2, j⟩
        rw [hB] at h
        cases res with
        | none => simp at h
        | some l' =>
          simp only [Option.some.injEq] at h
          subst h
          cases k with
          | zero =>
            simp only [List.get?_cons_zero, Option.map_some']
            rw [generate_ticker hr]
          | succ n =>
            simp only [List.get?_cons_succ]
            have := ih _ (i + 1) l' (by rw [hB]) n
            exact this

theorem c4_batch_fail_fast_witness :
    Gen.generateBatch Gen.defaultState (fun _ => ⟨0, 0, 0⟩) 0
        [("A|B".toList)] =
      (none, (Gen.generate Gen.defaultState ⟨0, 0, 0⟩ ("A|B".toList)).2, 1) ∧
    ((([] : List StockQuote).get? 0).map StockQuote.ticker
      = ([] : List Str).get? 0) :=
  ⟨c4_batch_fail_fast.1 Gen.defaultState (fun _ => ⟨0, 0, 0⟩) 0
      ("A|B".toList) [] (by decide),
   c4_batch_fail_fast.2 Gen.defaultState (fun _ => ⟨0, 0, 0⟩) 0 [] []
      (by decide) 0⟩

/-- C3 counterexample: a transport write failure DOES terminate the
unit.  With no stop signal and no queue closure in sight, one failed
send of a subscribed quote makes `stream_loop` exit with the send
error (propagated by `?`), and the following deliverable quote is
never processed. -/
theorem c3_send_failure_terminates :
    streamLoop ⟨["AAPL".toList], by decide⟩
        [.quote ⟨"AAPL".toList, ⟨100, 2⟩, 5, 7⟩ false,
         .quote ⟨"AAPL".toList, ⟨100, 2⟩, 5, 7⟩ true] =
      ([], some .sendError) ∧
    (StreamExit.sendError ≠ StreamExit.stopRequested) ∧
    (StreamExit.sendError ≠ StreamExit.queueClosed) := by
  refine ⟨by decide, by decide, by decide⟩

/-- C3 amended: a transport write failure while forwarding a subscribed
update terminates the unit — `stream_loop` returns the send error at
once (the error propagates through `?`; `run` merely logs it), leaving
subsequent events unprocessed.  A successful send continues the loop,
a filtered-out update is skipped silently, and the unit otherwise
transitions to `Stopped` only on an explicit stop signal or on closure
of its update queue. -/
theorem c3_send_failure_behaviour :
    (∀ (tk : Tickers) (q : StockQuote) (rest : List StreamEvent),
      tk.containsT q.ticker = true →
      streamLoop tk (.quote q false :: rest) = ([], some .sendError)) ∧
    (∀ (tk : Tickers) (q : StockQuote) (rest : List StreamEvent),
      tk.containsT q.ticker = true →
      streamLoop tk (.quote q true :: rest) =
        (q :: (streamLoop tk rest).1, (streamLoop tk rest).2)) ∧
    (∀ (tk : Tickers) (q : StockQuote) (rest : List StreamEvent) (ok : Bool),
      tk.containsT q.ticker = false →
      streamLoop tk (.quote q ok :: rest) = streamLoop tk rest) ∧
    (∀ (tk : Tickers) (rest : List StreamEvent),
      streamLoop tk (.stopSignal :: rest) = ([], some .stopRequested) ∧
      streamLoop tk (.quoteClosed :: rest) = ([], some .queueClosed)) := by
  refine ⟨?_, ?_, ?_, ?_⟩
  · intro tk q rest h
    simp [streamLoop, h]
  · intro tk q rest h
    simp [streamLoop, h]
  · intro tk q rest ok h
    simp [streamLoop, h]
  · intro tk rest
    exact ⟨rfl, rfl⟩

theorem c3_send_failure_behaviour_witness :
    streamLoop ⟨["AAPL".toList], by decide⟩
        [.quote ⟨"AAPL".toList, ⟨100, 2⟩, 5, 7⟩ false] =
      ([], some .sendError) :=
  c3_send_failure_behaviour.1 ⟨["AAPL".toList], by decide⟩
    ⟨"AAPL".toList, ⟨100, 2⟩, 5, 7⟩ [] (by decide)

/-- C2 counterexample: the bytes a Streaming Unit places in a
forwarded update's datagram are NOT the pipe-delimited text form —
`to_bytes` serialises to JSON; for the quote
`(AAPL, 285.00, 1000, 123)` the payload differs from
`AAPL|285.00|1000|123`. -/
theorem c2_payload_not_pipe :
    maybeSendPayload ⟨["AAPL".toList], by decide⟩
        ⟨"AAPL".toList, ⟨28500, 2⟩, 1000, 123⟩ =
      some (StockQuote.toJson ⟨"AAPL".toList, ⟨28500, 2⟩, 1000, 123⟩) ∧
    StockQuote.toJson ⟨"AAPL".toList, ⟨28500, 2⟩, 1000, 123⟩ ≠
      StockQuote.display ⟨"AAPL".toList, ⟨28500, 2⟩, 1000, 123⟩ := by
  refine ⟨by decide, by decide⟩

/-- C2 amended: for every update a Streaming Unit forwards (exactly
those whose topic the unit's ticker set contains), the bytes placed in
the single datagram are the JSON text form of that update —
`serde_json` object with `ticker`, `price` (the decimal's display form
as a JSON string), `volume`, `timestamp` — not the pipe-delimited form;
filtered-out updates produce no datagram. -/
theorem c2_payload_is_json (tk : Tickers) (q : StockQuote) :
    maybeSendPayload tk q =
      if tk.containsT q.ticker then some (StockQuote.toJson q) else none :=
  rfl

/-- C8 counterexample: `PING` does not reject trailing arguments — the
parser returns `Ping` for `"PING extra"` instead of a parse error
(the `PING` arm ignores the remaining tokens). -/
theorem c8_ping_extra_accepted :
    Command.fromStr (fun _ => none) ("PING extra".toList) =
      some Command.ping := by decide

/-- C8 amended: `STREAM` rejects more than two argument tokens — any
line whose first token uppercases to `STREAM` with at least three
further tokens parses to an error, whatever the address oracle says —
but a line whose first token uppercases to `PING` parses to `Ping`
regardless of any trailing tokens, which are silently ignored. -/
theorem c8_trailing_arguments :
    (∀ (parseAddr : Str → Option UdpAddr) (s : Str) (cmd : Str)
        (rest : List Str),
      splitWs s = cmd :: rest → upStr cmd = "PING".toList →
      Command.fromStr parseAddr s = some Command.ping) ∧
    (∀ (parseAddr : Str → Option UdpAddr) (s : Str) (cmd a t x : Str)
        (rest : List Str),
      splitWs s = cmd :: a :: t :: x :: rest →
      upStr cmd = "STREAM".toList →
      Command.fromStr parseAddr s = none) := by
  constructor
  · intro parseAddr s cmd rest hsplit hcmd
    unfold Command.fromStr
    rw [hsplit]
    dsimp only
    rw [hcmd, if_neg (by decide), if_pos rfl]
  · intro parseAddr s cmd a t x rest hsplit hcmd
    unfold Command.fromStr
    rw [hsplit]
    dsimp only
    rw [hcmd, if_pos rfl]
    cases hpa : parseAddr a with
    | none => rfl
    | some addr =>
      cases htk : Tickers.fromStr t with
      | none => rfl
      | some tk =>
        show (if x :: rest = [] then some (Command.stream addr tk) else none)
          = none
        rw [if_neg (by simp)]

theorem c8_trailing_arguments_witness :
    Command.fromStr (fun _ => some ⟨⟨1, 2⟩⟩)
        ("stream addr aapl extra".toList) = none :=
  c8_trailing_arguments.2 (fun _ => some ⟨⟨1, 2⟩⟩)
    ("stream addr aapl extra".toList) ("stream".toList) ("addr".toList)
    ("aapl".toList) ("extra".toList) [] (by decide) (by decide)

/-- C10: `update_ping_by_source` matches registry records by source IP
only — the heartbeat's source port is ignored — touches the first
matching record and no other, returns `true` exactly when some record's
stored origin IP equals the sender's IP, and on no match returns
`false` leaving every record unchanged. -/
theorem c10_touch_by_origin (now : ℕ) (ip port : ℕ) (clients : Clients) :
    (((updatePingBySource now ⟨ip, port⟩ clients).1 = true) ↔
      ∃ kc ∈ clients, kc.2.sourceIp = ip) ∧
    ((updatePingBySource now ⟨ip, port⟩ clients).1 = false →
      (updatePingBySource now ⟨ip, port⟩ clients).2 = clients) ∧
    (∀ port2 : ℕ, updatePingBySource now ⟨ip, port⟩ clients =
      updatePingBySource now ⟨ip, port2⟩ clients) ∧
    ((updatePingBySource now ⟨ip, port⟩ clients).1 = true →
      ∃ i : ℕ, ∃ k : UdpAddr, ∃ c : ClientInfo,
        clients.get? i = some (k, c) ∧ c.sourceIp = ip ∧
        (∀ j kc', j < i → clients.get? j = some kc' →
          kc'.2.sourceIp ≠ ip) ∧
        (updatePingBySource now ⟨ip, port⟩ clients).2 =
          clients.set i (k, c.touch now)) := by
  refine ⟨?_, ?_, ?_, ?_⟩
  · induction clients with
    | nil => simp [updatePingBySource]
    | cons p rest ih =>
      obtain ⟨k, c⟩ := p
      by_cases h : c.sourceIp = ip
      · simp only [updatePingBySource, if_pos h]
        simp only [true_iff]
        exact ⟨(k, c), List.mem_cons_self _ _, h⟩
      · simp only [updatePingBySource, if_neg h]
        rw [ih]
        constructor
        · rintro ⟨kc, hm, hip⟩
          exact ⟨kc, List.mem_cons_of_mem _ hm, hip⟩
        · rintro ⟨kc, hm, hip⟩
          rcases List.mem_cons.mp hm with rfl | hm2
          · exact absurd hip h
          · exact ⟨kc, hm2, hip⟩
  · induction clients with
    | nil => intro _; rfl
    | cons p rest ih =>
      obtain ⟨k, c⟩ := p
      by_cases h : c.sourceIp = ip
      · simp [updatePingBySource, if_pos h]
      · simp only [updatePingBySource, if_neg h]
        intro hf
        rw [ih hf]
  · intro port2
    induction clients with
    | nil => rfl
    | cons p rest ih =>
      obtain ⟨k, c⟩ := p
      by_cases h : c.sourceIp = ip
      · simp [updatePingBySource, if_pos h]
      · simp only [updatePingBySource, if_neg h]
        rw [ih]
  · induction clients with
    | nil => intro hf; exact absurd hf (by simp [updatePingBySource])
    | cons p rest ih =>
      obtain ⟨k, c⟩ := p
      by_cases h : c.sourceIp = ip
      · intro _
        refine ⟨0, k, c, rfl, h, ?_, ?_⟩
        · intro j kc' hj
          omega
        · simp [updatePingBySource, if_pos h]
      · simp only [updatePingBySource, if_neg h]
        intro hf
        obtain ⟨i, k', c', hget, hip, hprior, hset⟩ := ih hf
        refine ⟨i + 1, k', c', by simpa using hget, hip, ?_, ?_⟩
        · intro j kc' hj hg
          cases j with
          | zero =>
            simp only [List.get?_cons_zero, Option.some.injEq] at hg
            rw [← hg]
            exact h
          | succ m =>
            rw [List.get?_cons_succ] at hg
            exact hprior m kc' (by omega) hg
        · simp only [List.set_cons_succ]
          rw [← hset]

theorem c10_touch_by_origin_witness :
    ((updatePingBySource 5 ⟨9, 1111⟩
        [(⟨⟨1, 10⟩⟩, ⟨⟨⟨1, 10⟩⟩, ⟨["A".toList], by decide⟩, 0, 9⟩),
         (⟨⟨2, 20⟩⟩, ⟨⟨⟨2, 20⟩⟩, ⟨["B".toList], by decide⟩, 0, 9⟩)]).1 = true)
      ↔ ∃ kc ∈ [(⟨⟨1, 10⟩⟩, ⟨⟨⟨1, 10⟩⟩, ⟨["A".toList], by decide⟩, 0, 9⟩),
         ((⟨⟨2, 20⟩⟩ : UdpAddr),
          (⟨⟨⟨2, 20⟩⟩, ⟨["B".toList], by decide⟩, 0, 9⟩ : ClientInfo))],
          kc.2.sourceIp = 9 :=
  (c10_touch_by_origin 5 9 1111
    [(⟨⟨1, 10⟩⟩, ⟨⟨⟨1, 10⟩⟩, ⟨["A".toList], by decide⟩, 0, 9⟩),
     (⟨⟨2, 20⟩⟩, ⟨⟨⟨2, 20⟩⟩, ⟨["B".toList], by decide⟩, 0, 9⟩)]).1

/-! ### Registry / channel-table key lemmas (for the C1 invariant) -/

theorem memB_iff {l : List SockAddr} {a : SockAddr} :
    memB l a = true ↔ a ∈ l := by
  unfold memB
  rw [List.any_eq_true]
  constructor
  · rintro ⟨x, hx, he⟩
    rw [decide_eq_true_eq] at he
    rwa [← he]
  · intro ha
    exact ⟨a, ha, by simp⟩

theorem memB_keyInsert {t : SockAddr} {l : List SockAddr} {a : SockAddr} :
    memB (keyInsert t l) a = true ↔ a = t ∨ memB l a = true := by
  unfold keyInsert
  split
  · constructor
    · exact fun h => Or.inr h
    · rintro (rfl | h)
      · assumption
      · exact h
  · rw [memB_iff, List.mem_cons, memB_iff]

theorem regContains_iff {cl : Clients} {t : UdpAddr} :
    regContains cl t = true ↔ ∃ p ∈ cl, p.1 = t := by
  unfold regContains
  rw [List.any_eq_true]
  constructor
  · rintro ⟨p, hp, he⟩
    exact ⟨p, hp, by rwa [decide_eq_true_eq] at he⟩
  · rintro ⟨p, hp, he⟩
    exact ⟨p, hp, by simp [he]⟩

theorem mem_map_fst_alSet {α β : Type} [DecidableEq α] {k x : α} {v : β}
    {l : List (α × β)} :
    x ∈ (alSet k v l).map Prod.fst ↔ x = k ∨ x ∈ l.map Prod.fst := by
  induction l with
  | nil => simp [alSet]
  | cons p ps ih =>
    by_cases hp : p.1 = k
    · simp only [alSet, if_pos hp, List.map_cons, List.mem_cons]
      rw [hp]
      tauto
    · simp only [alSet, if_neg hp, List.map_cons, List.mem_cons, ih]
      tauto

theorem nodup_map_fst_alSet {α β : Type} [DecidableEq α] {k : α} {v : β}
    {l : List (α × β)} (h : (l.map Prod.fst).Nodup) :
    ((alSet k v l).map Prod.fst).Nodup := by
  induction l with
  | nil => simp [alSet]
  | cons p ps ih =>
    rw [List.map_cons, List.nodup_cons] at h
    by_cases hp : p.1 = k
    · simp only [alSet, if_pos hp, List.map_cons, List.nodup_cons]
      exact ⟨by rw [← hp]; exact h.1, h.2⟩
    · simp only [alSet, if_neg hp, List.map_cons, List.nodup_cons]
      refine ⟨?_, ih h.2⟩
      rw [mem_map_fst_alSet]
      rintro (he | hm)
      · exact hp he
      · exact h.1 hm

theorem alSet_mem_self {α β : Type} [DecidableEq α] (k : α) (v : β)
    (l : List (α × β)) : ∃ q ∈ alSet k v l, q.1 = k := by
  induction l with
  | nil => exact ⟨(k, v), by simp [alSet], rfl⟩
  | cons p ps ih =>
    by_cases hp : p.1 = k
    · exact ⟨(k, v), by simp [alSet, hp], rfl⟩
    · obtain ⟨q, hq, hqe⟩ := ih
      exact ⟨q, by
        simp only [alSet, if_neg hp]
        exact List.mem_cons_of_mem _ hq, hqe⟩

theorem mem_alSet_of_ne {α β : Type} [DecidableEq α] {k : α} {v : β}
    {l : List (α × β)} {p : α × β} (hp : p ∈ l) (hne : p.1 ≠ k) :
    p ∈ alSet k v l := by
  induction l with
  | nil => simp at hp
  | cons q qs ih =>
    rcases List.mem_cons.mp hp with rfl | hm
    · simp only [alSet, if_neg hne]
      exact List.mem_cons_self _ _
    · by_cases hq : q.1 = k
      · simp only [alSet, if_pos hq]
        exact List.mem_cons_of_mem _ hm
      · simp only [alSet, if_neg hq]
        exact List.mem_cons_of_mem _ (ih hm)

theorem regContains_alSet {cl : Clients} {t k : UdpAddr} {v : ClientInfo} :
    regContains (alSet t v cl) k = true ↔ k = t ∨ regContains cl k = true := by
  rw [regContains_iff, regContains_iff]
  constructor
  · rintro ⟨p, hp, he⟩
    have := mem_map_fst_alSet.mp (List.mem_map_of_mem Prod.fst hp)
    rcases this with h1 | h1
    · left; rw [← he, h1]
    · subst he
      rcases List.mem_map.mp h1 with ⟨q, hq, hqe⟩
      right
      exact ⟨q, hq, hqe⟩
  · rintro (rfl | ⟨p, hp, he⟩)
    · obtain ⟨q, hq, hqe⟩ := alSet_mem_self k v cl
      exact ⟨q, hq, hqe⟩
    · by_cases hk : k = t
      · subst hk
        obtain ⟨q, hq, hqe⟩ := alSet_mem_self k v cl
        exact ⟨q, hq, hqe⟩
      · exact ⟨p, mem_alSet_of_ne hp (by rw [he]; exact hk), he⟩

theorem updatePing_map_fst (now : ℕ) (src : SockAddr) (cl : Clients) :
    ((updatePingBySource now src cl).2).map Prod.fst = cl.map Prod.fst := by
  induction cl with
  | nil => rfl
  | cons p rest ih =>
    obtain ⟨k, c⟩ := p
    by_cases h : c.sourceIp = src.ip
    · simp [updatePingBySource, if_pos h]
    · simp only [updatePingBySource, if_neg h, List.map_cons]
      rw [ih]

theorem regContains_updatePing (now : ℕ) (src : SockAddr) (cl : Clients)
    (k : UdpAddr) :
    regContains (updatePingBySource now src cl).2 k = regContains cl k := by
  induction cl with
  | nil => rfl
  | cons p rest ih =>
    obtain ⟨kk, c⟩ := p
    by_cases h : c.sourceIp = src.ip
    · simp [updatePingBySource, if_pos h, regContains, ClientInfo.touch]
    · simp only [updatePingBySource, if_neg h, regContains, List.any_cons]
      rw [show (updatePingBySource now src rest).2.any
          (fun p => decide (p.1 = k)) = regContains rest k from ih]
      rfl

theorem memB_filter (f : SockAddr → Bool) (l : List SockAddr) (a : SockAddr) :
    memB (l.filter f) a = true ↔ memB l a = true ∧ f a = true := by
  rw [memB_iff, List.mem_filter, memB_iff]

/-- The lifecycle invariant: registry keys, quote-channel keys and
stop-channel keys agree, and registry keys are unique. -/
def SrvInv (st : SrvState) : Prop :=
  (∀ a : SockAddr, regContains st.reg ⟨a⟩ = true ↔ memB st.chans a = true) ∧
  st.chans = st.stops ∧ (st.reg.map Prod.fst).Nodup

theorem srvInv_init : SrvInv initState := by
  refine ⟨?_, rfl, by simp [initState]⟩
  intro a
  simp [initState, regContains, memB]

theorem srvInv_step (timeout : ℕ) (st : SrvState) (op : SrvOp)
    (h : SrvInv st) : SrvInv (applyOp timeout st op) := by
  obtain ⟨hkeys, hcs, hnd⟩ := h
  cases op with
  | subscribe t tk ip now =>
    refine ⟨?_, by simp only [applyOp]; rw [hcs], ?_⟩
    · intro a
      simp only [applyOp]
      unfold register
      rw [regContains_alSet, memB_keyInsert, hkeys a]
      obtain ⟨ta⟩ := t
      simp only [UdpAddr.mk.injEq]
    · simp only [applyOp]
      unfold register
      exact nodup_map_fst_alSet hnd
  | heartbeat src now =>
    refine ⟨?_, by simp only [applyOp]; exact hcs, ?_⟩
    · intro a
      simp only [applyOp]
      rw [regContains_updatePing]
      exact hkeys a
    · simp only [applyOp]
      rw [updatePing_map_fst]
      exact hnd
  | sweep now =>
    have huniq : ∀ p ∈ st.reg, ∀ q ∈ st.reg, p.1 = q.1 → p = q :=
      fun p hp q hq he => List.inj_on_of_nodup_map hnd hp hq he
    refine ⟨?_, by simp only [applyOp]; rw [hcs], ?_⟩
    · intro a
      simp only [applyOp, removeExpired]
      have hL : regContains
          (st.reg.filter (fun p => !(p.2.isExpired now timeout))) ⟨a⟩ = true ↔
          ∃ p ∈ st.reg, p.1 = ⟨a⟩ ∧ p.2.isExpired now timeout = false := by
        rw [regContains_iff]
        constructor
        · rintro ⟨p, hpf, hpk⟩
          obtain ⟨hpm, hkeep⟩ := List.mem_filter.mp hpf
          exact ⟨p, hpm, hpk, by simpa using hkeep⟩
        · rintro ⟨p, hpm, hpk, hexp⟩
          exact ⟨p, List.mem_filter.mpr ⟨hpm, by simp [hexp]⟩, hpk⟩
      have hA : (((st.reg.filter (fun p => p.2.isExpired now timeout)).map
            Prod.fst).map UdpAddr.socketAddr).any (fun y => decide (y = a))
            = true ↔
          ∃ p ∈ st.reg, p.2.isExpired now timeout = true ∧ p.1 = ⟨a⟩ := by
        rw [List.any_eq_true]
        constructor
        · rintro ⟨y, hy, hya⟩
          rw [decide_eq_true_eq] at hya
          subst hya
          obtain ⟨u, hu, hue⟩ := List.mem_map.mp hy
          obtain ⟨p, hpf, hpe⟩ := List.mem_map.mp hu
          obtain ⟨hpm, hpE⟩ := List.mem_filter.mp hpf
          refine ⟨p, hpm, hpE, ?_⟩
          obtain ⟨ua⟩ := u
          subst hue
          exact hpe
        · rintro ⟨p, hpm, hpE, hpk⟩
          refine ⟨a, ?_, by simp⟩
          refine List.mem_map.mpr ⟨p.1, List.mem_map.mpr
            ⟨p, List.mem_filter.mpr ⟨hpm, hpE⟩, rfl⟩, ?_⟩
          rw [hpk]
      rw [hL, memB_filter, ← hkeys a, regContains_iff]
      simp only [Bool.not_eq_true', Bool.eq_false_iff]
      constructor
      · rintro ⟨p, hpm, hpk, hE⟩
        refine ⟨⟨p, hpm, hpk⟩, ?_⟩
        intro hany
        obtain ⟨q, hqm, hqE, hqk⟩ := hA.mp hany
        have hqp : q = p := huniq q hqm p hpm (hqk.trans hpk.symm)
        subst hqp
        exact hE hqE
      · rintro ⟨⟨p, hpm, hpk⟩, hg⟩
        refine ⟨p, hpm, hpk, ?_⟩
        intro hEp
        exact absurd (hA.mpr ⟨p, hpm, hEp, hpk⟩) hg
    · simp only [applyOp, removeExpired]
      have hsub : List.Sublist
          ((st.reg.filter (fun p => !(p.2.isExpired now timeout))).map Prod.fst)
          (st.reg.map Prod.fst) :=
        List.Sublist.map Prod.fst (List.filter_sublist _)
      exact List.Nodup.sublist hsub hnd

theorem srvInv_run (timeout : ℕ) (ops : List SrvOp) :
    SrvInv (runOps timeout ops) := by
  have hgen : ∀ (l : List SrvOp) (st : SrvState), SrvInv st →
      SrvInv (l.foldl (applyOp timeout) st) := by
    intro l
    induction l with
    | nil => exact fun st h => h
    | cons op rest ih => exact fun st h => ih _ (srvInv_step timeout st op h)
  exact hgen ops initState srvInv_init

/-- C1: after any sequence of subscriber lifecycle operations from the
empty initial state — successful Subscribe registrations, heartbeat
touches, expiry sweeps — the set of delivery targets in the Registry
equals the key set of the per-subscriber update-channel table and the
key set of the stop-signal table: a record exists iff its channel entry
exists iff its stop entry exists; each step updates all three together. -/
theorem c1_lifecycle_key_agreement (timeout : ℕ) (ops : List SrvOp)
    (a : SockAddr) :
    (regContains (runOps timeout ops).reg ⟨a⟩ =
      memB (runOps timeout ops).chans a) ∧
    (runOps timeout ops).chans = (runOps timeout ops).stops := by
  obtain ⟨hkeys, hcs, _⟩ := srvInv_run timeout ops
  refine ⟨?_, hcs⟩
  have hiff := hkeys a
  cases hr : regContains (runOps timeout ops).reg ⟨a⟩ <;>
    cases hm : memB (runOps timeout ops).chans a <;> simp_all

/-! ### C9: round trip of the pipe-delimited quote form -/

theorem mem_pad_isDigit {n s : ℕ} {c : Char}
    (h : c ∈ (if (natRender n).length ≤ s then
      List.replicate (s + 1 - (natRender n).length) '0' ++ natRender n
      else natRender n)) : isDigitB c = true := by
  split at h
  · rcases List.mem_append.mp h with h1 | h1
    · rw [List.eq_of_mem_replicate h1]; decide
    · exact mem_natRender_isDigit h1
  · exact mem_natRender_isDigit h

/-- Every character of a decimal's display form is a digit, the sign or
the point. -/
theorem mem_render {d : Dec} {c : Char} (h : c ∈ Dec.render d) :
    isDigitB c = true ∨ c = '-' ∨ c = '.' := by
  simp only [Dec.render] at h
  split at h
  · rcases List.mem_append.mp h with h1 | h1
    · split at h1
      · rw [List.mem_singleton] at h1
        right; left; exact h1
      · simp at h1
    · exact Or.inl (mem_pad_isDigit h1)
  · rcases List.mem_append.mp h with h1 | h1
    · split at h1
      · rw [List.mem_singleton] at h1
        right; left; exact h1
      · simp at h1
    · rcases List.mem_append.mp h1 with h2 | h2
      · exact Or.inl (mem_pad_isDigit (List.take_subset _ _ h2))
      · rcases List.mem_cons.mp h2 with rfl | h3
        · right; right; rfl
        · exact Or.inl (mem_pad_isDigit (List.drop_subset _ _ h3))

theorem pipe_not_mem_render (d : Dec) : '|' ∉ Dec.render d := by
  intro h
  rcases mem_render h with h1 | h1 | h1
  · exact absurd h1 (by decide)
  · exact absurd h1 (by decide)
  · exact absurd h1 (by decide)

theorem pipe_not_mem_natRender (n : ℕ) : '|' ∉ natRender n := by
  intro h
  exact absurd (mem_natRender_isDigit h) (by decide)

theorem trimStart_append (a b : Str) : trimStart (a ++ b) =
    if trimStart a = [] then trimStart b else trimStart a ++ b := by
  induction a with
  | nil => simp [trimStart]
  | cons c cs ih =>
    by_cases h : isWs c = true
    · rw [show trimStart (c :: cs ++ b) = trimStart (cs ++ b) by
        simp [trimStart, List.dropWhile_cons, h],
        show trimStart (c :: cs) = trimStart cs by
        simp [trimStart, List.dropWhile_cons, h], ih]
    · rw [show trimStart (c :: cs ++ b) = c :: (cs ++ b) by
        simp [trimStart, List.dropWhile_cons, h],
        show trimStart (c :: cs) = c :: cs by
        simp [trimStart, List.dropWhile_cons, h]]
      rw [if_neg (by simp)]
      rfl

/-- The pipe form of a quote never enters the JSON branch unless the
ticker itself opens (after whitespace) with a brace. -/
theorem display_brace_check (q : StockQuote)
    (hbrace : (trimStart q.ticker).head? ≠ some '\x7b') :
    (trimStart (StockQuote.display q)).head? ≠ some '\x7b' := by
  unfold StockQuote.display
  rw [trimStart_append]
  split
  · rw [show trimStart ('|' :: (Dec.render q.price ++ '|' ::
      (natRender q.volume ++ '|' :: natRender q.timestamp))) =
      '|' :: (Dec.render q.price ++ '|' ::
      (natRender q.volume ++ '|' :: natRender q.timestamp)) by
      simp [trimStart, List.dropWhile_cons,
        (by decide : isWs '|' = false)]]
    simp
  · cases hta : trimStart q.ticker with
    | nil => exact absurd hta (by assumption)
    | cons x xs =>
      rw [hta] at hbrace
      simp only [List.cons_append, List.head?_cons]
      simpa using hbrace

/-- Splitting the display form recovers the four fields. -/
theorem splitOnChar_display (q : StockQuote) (hsep : '|' ∉ q.ticker) :
    splitOnChar '|' (StockQuote.display q) =
      [q.ticker, Dec.render q.price, natRender q.volume,
       natRender q.timestamp] := by
  unfold StockQuote.display
  rw [splitOnChar_append _ hsep,
    splitOnChar_append _ (pipe_not_mem_render q.price),
    splitOnChar_append _ (pipe_not_mem_natRender q.volume),
    splitOnChar_of_not_mem (pipe_not_mem_natRender q.timestamp)]

/-- C9 counterexample: a quote whose ticker is non-empty and free of
the separator `|` can still fail to round-trip — a ticker opening with
a brace routes the parser into the JSON branch, which rejects the
pipe-delimited text. -/
theorem c9_brace_ticker_breaks_roundtrip :
    ("\x7bA".toList ≠ ([] : Str)) ∧
    ('|' ∉ "\x7bA".toList) ∧
    StockQuote.fromStr (StockQuote.display
      ⟨"\x7bA".toList, ⟨100, 2⟩, 5, 7⟩) = none := by
  refine ⟨by decide, by decide, by decide⟩

/-- C9 amended: for every well-formed Update whose ticker is non-empty,
free of the field separator `|`, and does not open (after leading
whitespace) with a brace, parsing the pipe-delimited text form yields
an Update equal to the original in all four fields, the decimal price's
mantissa and scale — its precision — preserved exactly. -/
theorem c9_pipe_roundtrip (q : StockQuote) (_hne : q.ticker ≠ [])
    (hsep : '|' ∉ q.ticker)
    (hbrace : (trimStart q.ticker).head? ≠ some '\x7b')
    (hwf : q.WF) :
    StockQuote.fromStr (StockQuote.display q) = some q := by
  obtain ⟨hval, hvol, hts⟩ := hwf
  unfold StockQuote.fromStr
  rw [if_neg (display_brace_check q hbrace), splitOnChar_display q hsep]
  simp only [Dec.parse_render q.price hval, natParse_natRender]
  rw [if_neg (by omega : ¬ 2 ^ 32 ≤ q.volume),
    if_neg (by omega : ¬ 2 ^ 64 ≤ q.timestamp)]

theorem c9_pipe_roundtrip_witness :
    StockQuote.fromStr (StockQuote.display
        ⟨"AAPL".toList, ⟨28500, 2⟩, 1000, 123⟩) =
      some ⟨"AAPL".toList, ⟨28500, 2⟩, 1000, 123⟩ :=
  c9_pipe_roundtrip ⟨"AAPL".toList, ⟨28500, 2⟩, 1000, 123⟩
    (by decide) (by decide) (by decide)
    ⟨by decide, by decide, by decide⟩
